import Mathlib

/-!
Verification of the mwlib wiki parser core (templ brace parser, structural
refinement passes, quote disambiguation) against its specification.

The definitions below are shallow embeddings of the Python sources under
`src/`:
  * `src/src/mwlib/refine/core.py` (refinement passes),
  * `src/src/mwlib/templ/parser.py` (macro brace parser),
  * `src/src/mwlib/utoken.py` (token model and tokenize entry point).
Imperative in-place list manipulation is modelled by explicit state passing:
the evolving token buffer `tokens` with loop index `i` is represented by the
pair `left`/`rest` with `left = tokens[0:i]` and `rest = tokens[i:]`.
-/

namespace Mwlib

/-- Token kind constants of `mwlib.utoken.Token` (src/src/mwlib/utoken.py,
lines 92-136), including the `t_complex_*` kinds attached in
`mwlib/refine/core.py` lines 24-39. -/
inductive TType where
  | t_end
  | t_text
  | t_entity
  | t_special
  | t_magicword
  | t_comment
  | t_2box_open
  | t_2box_close
  | t_http_url
  | t_break
  | t_begintable
  | t_endtable
  | t_html_tag
  | t_singlequote
  | t_pre
  | t_section
  | t_section_end
  | t_item
  | t_colon
  | t_semicolon
  | t_hrule
  | t_newline
  | t_column
  | t_row
  | t_tablecaption
  | t_urllink
  | t_uniq
  | t_html_tag_end
  | t_complex_table
  | t_complex_caption
  | t_complex_table_row
  | t_complex_table_cell
  | t_complex_tag
  | t_complex_link
  | t_complex_section
  | t_complex_article
  | t_complex_indent
  | t_complex_line
  | t_complex_named_url
  | t_complex_style
  | t_complex_node
  | t_complex_preformatted
  | t_complex_compat
  deriving DecidableEq, Repr

/-- `mwlib.utoken.Token` restricted to the fields the refinement passes under
verification read or write (`type`, `text`, `children`, `level`, `caption`,
`tagname`, `lineprefix`, `blocknode`).  Python's `None` defaults for `text`,
`tagname` and `lineprefix` are represented by `""` (both are falsy and are
only ever truth-tested or indexed by the embedded code). -/
inductive UToken where
  | mk (ty : TType) (text : String) (children : List UToken)
       (level : Nat) (caption : String) (tagname : String)
       (linepref : String) (blocknode : Bool) (rawtagname : String)

namespace UToken

def ty : UToken → TType
  | .mk t _ _ _ _ _ _ _ _ => t

def text : UToken → String
  | .mk _ s _ _ _ _ _ _ _ => s

def children : UToken → List UToken
  | .mk _ _ cs _ _ _ _ _ _ => cs

def level : UToken → Nat
  | .mk _ _ _ l _ _ _ _ _ => l

def caption : UToken → String
  | .mk _ _ _ _ c _ _ _ _ => c

def tagname : UToken → String
  | .mk _ _ _ _ _ tn _ _ _ => tn

def linepref : UToken → String
  | .mk _ _ _ _ _ _ lp _ _ => lp

def blocknode : UToken → Bool
  | .mk _ _ _ _ _ _ _ b _ => b

def rawtagname : UToken → String
  | .mk _ _ _ _ _ _ _ _ rt => rt

def withChildren : UToken → List UToken → UToken
  | .mk t s _ l c tn lp b rt, cs => .mk t s cs l c tn lp b rt

def withType : UToken → TType → UToken
  | .mk _ s cs l c tn lp b rt, t => .mk t s cs l c tn lp b rt

def withCaption : UToken → String → UToken
  | .mk t s cs l _ tn lp b rt, c => .mk t s cs l c tn lp b rt

def withLinepref : UToken → String → UToken
  | .mk t s cs l c tn _ b rt, lp => .mk t s cs l c tn lp b rt

end UToken

/-- `Token(type=ty, text=s)`: a leaf token with all other fields defaulted. -/
def tok (ty : TType) (s : String) : UToken :=
  .mk ty s [] 0 "" "" "" false ""

/-- `Token(type=ty, children=cs)`: a container token with defaulted fields. -/
def tokc (ty : TType) (cs : List UToken) : UToken :=
  .mk ty "" cs 0 "" "" "" false ""

/-- `txt.count("=")` on a Python string. -/
def countEq (s : String) : Nat :=
  (s.toList.filter (fun c => c = '=')).length

/-- `tokens[n].text` with a default for the (unreachable) out-of-range case. -/
def textAt (tokens : List UToken) (n : Nat) : String :=
  ((tokens.get? n).map UToken.text).getD ""

/-- Replace the element at index `n` by `f` of it; identity when out of range
(mirrors in-place assignment `tokens[n] = f(tokens[n])`). -/
def modifyAt (l : List α) (n : Nat) (f : α → α) : List α :=
  match l, n with
  | [], _ => []
  | a :: as, 0 => f a :: as
  | a :: as, n+1 => a :: modifyAt as n f

/-- Python slice `l[a:b]` for `0 ≤ a`, `0 ≤ b` (clamping semantics agree). -/
def pySlice (l : List α) (a b : Nat) : List α :=
  (l.drop a).take (b - a)

/-- `SECTION_TAG` from src/src/mwlib/refine/core.py line 67. -/
def SECTION_TAG : String := "@section"

/-! ### ParseSections (src/src/mwlib/refine/core.py lines 117-187)

The pass scans for `t_section` / `t_section_end` markers.  The inner
`create()` closure replaces the slice `tokens[current.start : i]` by one
section node and nests it by the stack discipline.  The Python `sections`
stack holds aliases of section nodes already placed in the buffer: the
aliasing invariant (each stack entry below the top is the parent of the next,
via its last child) lets the stack be represented by the list of open section
*levels* (top first) together with `rootPos`, the buffer index of the
bottom-most open section; `appendChain` performs the aliased
`sections[-1].children.append(...)` mutation at chain depth `d`. -/

/-- Append `sect` as a new last child of the node reached from `root` by
descending last children `depth` times (the functional image of Python's
mutation of the aliased stack top). -/
def appendChain (depth : Nat) (sect : UToken) (root : UToken) : UToken :=
  match depth with
  | 0 => root.withChildren (root.children ++ [sect])
  | d+1 =>
    match root.children.getLast? with
    | none => root
    | some last => root.withChildren (root.children.dropLast ++ [appendChain d sect last])

mutual

/-- Rendering of a token for development diagnostics. -/
def UToken.reprTok : UToken → String
  | .mk t s cs l c tn lp b _ =>
    "Tok(" ++ toString (repr t) ++ ", " ++ reprStr s ++ ", [" ++ UToken.reprToks cs ++
      "], lvl=" ++ toString l ++ ", cap=" ++ reprStr c ++ ", tag=" ++ reprStr tn ++
      ", lp=" ++ reprStr lp ++ ", blk=" ++ toString b ++ ")"

def UToken.reprToks : List UToken → String
  | [] => ""
  | [x] => UToken.reprTok x
  | x :: xs => UToken.reprTok x ++ ", " ++ UToken.reprToks xs

end

instance : ToString UToken := ⟨UToken.reprTok⟩

instance : ToString (List UToken) := ⟨fun l => "[" ++ UToken.reprToks l ++ "]"⟩

structure SectCreate where
  left : List UToken
  stack : List Nat
  rootPos : Nat
  sect : UToken

/-- The level `create()` assigns: `min` of the `=`-counts of the opening and
closing heading markers (`l1`/`l2` at src/src/mwlib/refine/core.py
lines 133-135). -/
def sectLevel (left : List UToken) (s e : Nat) : Nat :=
  min (countEq (textAt left s)) (countEq (textAt left e))

/-- Caption children built by `create()`: the title tokens `tokens[s+1:e]`,
compensated with literal `=`s when the two markers differ in length. -/
def sectCaption (left : List UToken) (s e : Nat) : List UToken :=
  let l1 := countEq (textAt left s)
  let l2 := countEq (textAt left e)
  let cap0 := pySlice left (s+1) e
  if l1 < l2 then cap0 ++ [tok .t_text (String.mk (List.replicate (l2 - l1) '='))]
  else if l2 < l1 then tok .t_text (String.mk (List.replicate (l1 - l2) '=')) :: cap0
  else cap0

/-- The section node `sect` built by `create()`: children are the caption
wrapper and the body wrapper holding `tokens[e+1:i]`. -/
def mkSect (left : List UToken) (s e : Nat) : UToken :=
  .mk .t_complex_section ""
    [tokc .t_complex_node (sectCaption left s e),
     tokc .t_complex_node (left.drop (e+1))]
    (sectLevel left s e) "" SECTION_TAG "" true ""

/-- The body of `create()` (src/src/mwlib/refine/core.py lines 129-170) in the
case `current.start = some s`, `current.endtitle = some e`; `left` is the
buffer prefix `tokens[0:i]`. -/
def sectionsCreate (left : List UToken) (s e : Nat) (stack : List Nat)
    (rootPos : Nat) : SectCreate :=
  let level := sectLevel left s e
  let sect := mkSect left s e
  match stack.dropWhile (fun l => level ≤ l) with
  | [] => { left := left.take s ++ [sect], stack := [level], rootPos := s, sect := sect }
  | stack' =>
    { left := modifyAt (left.take s) rootPos (appendChain (stack'.length - 1) sect),
      stack := level :: stack', rootPos := rootPos, sect := sect }

theorem sectionsCreate_of_dropWhile_nil {left : List UToken} {s e : Nat}
    {stack : List Nat} {rootPos : Nat}
    (h : stack.dropWhile (fun l => sectLevel left s e ≤ l) = []) :
    sectionsCreate left s e stack rootPos =
      { left := left.take s ++ [mkSect left s e], stack := [sectLevel left s e],
        rootPos := s, sect := mkSect left s e } := by
  simp only [sectionsCreate]
  rw [h]

theorem sectionsCreate_of_dropWhile_cons {left : List UToken} {s e : Nat}
    {stack : List Nat} {rootPos : Nat} {l0 : Nat} {ls : List Nat}
    (h : stack.dropWhile (fun l => sectLevel left s e ≤ l) = l0 :: ls) :
    sectionsCreate left s e stack rootPos =
      { left := modifyAt (left.take s) rootPos
          (appendChain ((l0 :: ls).length - 1) (mkSect left s e)),
        stack := sectLevel left s e :: l0 :: ls,
        rootPos := rootPos, sect := mkSect left s e } := by
  simp only [sectionsCreate]
  rw [h]

/-- The scanning loop of `ParseSections.run` (src/src/mwlib/refine/core.py
lines 172-187).  After a successful `create()` Python resets `i` to just
after the new section, so the very next processed token is the `t_section`
that triggered the call; that replay is inlined in the first branch. -/
def sectionsLoop (left : List UToken) (start endtitle : Option Nat)
    (stack : List Nat) (rootPos : Nat) : List UToken → List UToken
  | [] =>
    match start, endtitle with
    | some s, some e => (sectionsCreate left s e stack rootPos).left
    | _, _ => left
  | t :: rest =>
    if t.ty = .t_section then
      match start, endtitle with
      | some s, some e =>
        let r := sectionsCreate left s e stack rootPos
        sectionsLoop (r.left ++ [t]) (some r.left.length) none r.stack r.rootPos rest
      | _, _ => sectionsLoop (left ++ [t]) (some left.length) endtitle stack rootPos rest
    else if t.ty = .t_section_end then
      sectionsLoop (left ++ [t]) start (some left.length) stack rootPos rest
    else
      sectionsLoop (left ++ [t]) start endtitle stack rootPos rest

/-- `ParseSections.run` on a token buffer. -/
def ParseSections.run (tokens : List UToken) : List UToken :=
  sectionsLoop [] none none [] 0 tokens

/-- A section node as built by `create()`. -/
def secNode (lvl : Nat) (cs : List UToken) : UToken :=
  .mk .t_complex_section "" cs lvl "" SECTION_TAG "" true ""

/-- Token stream of `"=A=\nx\n==B==\ny\n=C=\nz"` as classified by the lexer
(`t_section` / `t_section_end` markers around each heading title). -/
def exTokensC1 : List UToken :=
  [tok .t_section "=", tok .t_text "A", tok .t_section_end "=",
   tok .t_newline "\n", tok .t_text "x", tok .t_newline "\n",
   tok .t_section "==", tok .t_text "B", tok .t_section_end "==",
   tok .t_newline "\n", tok .t_text "y", tok .t_newline "\n",
   tok .t_section "=", tok .t_text "C", tok .t_section_end "=",
   tok .t_newline "\n", tok .t_text "z"]

/-- Expected section tree for `exTokensC1`: A (level 1, containing B at
level 2) and C (level 1) as the only two top-level nodes. -/
def exResultC1 : List UToken :=
  [secNode 1
    [tokc .t_complex_node [tok .t_text "A"],
     tokc .t_complex_node [tok .t_newline "\n", tok .t_text "x", tok .t_newline "\n"],
     secNode 2
       [tokc .t_complex_node [tok .t_text "B"],
        tokc .t_complex_node [tok .t_newline "\n", tok .t_text "y", tok .t_newline "\n"]]],
   secNode 1
    [tokc .t_complex_node [tok .t_text "C"],
     tokc .t_complex_node [tok .t_newline "\n", tok .t_text "z"]]]

/-- C1: the section pass builds each section node with level equal to the
minimum of the `=`-counts of the opening and closing markers, pops the stack
of open sections while the top's level is `≥` the new level, then attaches the
new section as a child of the remaining top of stack if one remains and as a
new top-level sibling otherwise; parsing `"=A=\nx\n==B==\ny\n=C=\nz"` yields
exactly two top-level sections, A (level 1) containing B (level 2), and C
(level 1) as a sibling of A. -/
theorem C1_section_nesting :
    (∀ left s e stack rootPos,
      (sectionsCreate left s e stack rootPos).sect.level = sectLevel left s e ∧
      (sectionsCreate left s e stack rootPos).stack
        = sectLevel left s e :: stack.dropWhile (fun l => sectLevel left s e ≤ l) ∧
      (stack.dropWhile (fun l => sectLevel left s e ≤ l) = [] →
        (sectionsCreate left s e stack rootPos).left
          = left.take s ++ [(sectionsCreate left s e stack rootPos).sect]) ∧
      (stack.dropWhile (fun l => sectLevel left s e ≤ l) ≠ [] →
        (sectionsCreate left s e stack rootPos).left
          = modifyAt (left.take s) rootPos
              (appendChain ((stack.dropWhile (fun l => sectLevel left s e ≤ l)).length - 1)
                (sectionsCreate left s e stack rootPos).sect))) ∧
    ParseSections.run exTokensC1 = exResultC1 := by
  constructor
  · intro left s e stack rootPos
    rcases h : stack.dropWhile (fun l => sectLevel left s e ≤ l) with _ | ⟨l0, ls⟩
    · rw [sectionsCreate_of_dropWhile_nil h]
      refine ⟨rfl, rfl, fun _ => rfl, fun hc => absurd rfl hc⟩
    · rw [sectionsCreate_of_dropWhile_cons h]
      exact ⟨rfl, rfl, fun hn => absurd hn (by simp), fun _ => rfl⟩
  · rfl

/-! ### ParsePreformatted (src/src/mwlib/refine/core.py lines 320-363)

`run()` groups a `t_pre` token and the material up to (and including) the next
newline into one `t_complex_preformatted` node, extending an immediately
preceding preformatted node instead of creating a fresh one.  The dead
internal guard `if t.type != Token.t_pre: raise ValueError(...)` is kept and
modelled by the `Except` error channel. -/

/-- The block constructs that cancel a pending preformatted start
(`t.blocknode or (t.type == t_complex_tag and t.tagname in (...))`). -/
def isPreBlockBreak (t : UToken) : Bool :=
  t.blocknode ||
    (t.ty = .t_complex_tag &&
      (t.tagname = "blockquote" || t.tagname = "table" ||
       t.tagname = "timeline" || t.tagname = "div"))

/-- The scanning loop of `ParsePreformatted.run`; `left = tokens[0:i]`,
`start` is the index of the pending `t_pre` token if any. -/
def preLoop (left : List UToken) (start : Option Nat) :
    List UToken → Except String (List UToken)
  | [] => .ok left
  | t :: rest =>
    if t.ty = .t_pre then
      if t.ty ≠ .t_pre then .error "t.type != Token.t_pre"
      else preLoop (left ++ [t]) (some left.length) rest
    else
      match start with
      | some s =>
        if t.ty = .t_newline then
          let sub := left.drop (s+1) ++ [t]
          if 0 < s ∧ ((left.get? (s-1)).map UToken.ty) = some .t_complex_preformatted then
            preLoop (modifyAt (left.take s) (s-1)
              (fun p => p.withChildren (p.children ++ sub))) none rest
          else
            preLoop (left.take s ++ [.mk .t_complex_preformatted "" sub 0 "" "" "" true ""])
              none rest
        else if isPreBlockBreak t then preLoop (left ++ [t]) none rest
        else preLoop (left ++ [t]) (some s) rest
      | none => preLoop (left ++ [t]) none rest

/-- `ParsePreformatted.run` on one token scope. -/
def ParsePreformatted.run (tokens : List UToken) : Except String (List UToken) :=
  preLoop [] none tokens

/-- The internal consistency guard of `ParsePreformatted.run` never fires:
the pass always returns a buffer, for every input and every loop state. -/
theorem preLoop_isOk (rest : List UToken) : ∀ (left : List UToken) (start : Option Nat),
    ∃ out, preLoop left start rest = .ok out := by
  induction rest with
  | nil => intro left start; exact ⟨left, rfl⟩
  | cons t ts ih =>
    intro left start
    cases start with
    | none =>
      simp only [preLoop]
      split_ifs with h1 h2
      · exact absurd h1 h2
      · exact ih _ _
      · exact ih _ _
    | some s =>
      simp only [preLoop]
      split_ifs with h1 h2 h3 h4 h5
      · exact absurd h1 h2
      · exact ih _ _
      · exact ih _ _
      · exact ih _ _
      · exact ih _ _
      · exact ih _ _

/-! ### Quote disambiguation (ParseSingleQuote, src/src/mwlib/refine/core.py
lines 233-317)

`run()` groups each apostrophe run together with the material up to the next
run (or newline, or end of input) into a `t_complex_style` token and records
the run lengths; `finish()` asks the style analyzer for the per-run quote
states and rewrites each recorded style token accordingly. -/

/-- Per-run quote state: cumulative count of literal apostrophes re-emitted
so far and the bold/italic toggles in effect after the run. -/
structure QState where
  apocount : Nat
  is_bold : Bool
  is_italic : Bool
  deriving DecidableEq, Repr

/-- Modelled from the spec: `mwlib.parser.styleanalyzer` is not under `src/`.
Spec §4.2 fixes the per-run rules of the quote engine: count 2 toggles
italic; count 3 toggles bold; count 4 is treated as count 3 with one leading
literal apostrophe; count 5 toggles both; counts above 5 toggle both with
`count - 5` leading literal apostrophes.  `apocount` accumulates, matching
how `ParseSingleQuote.finish` reads it back through successive differences. -/
def quoteStep (st : QState) (c : Nat) : QState :=
  if c = 2 then { st with is_italic := !st.is_italic }
  else if c = 3 then { st with is_bold := !st.is_bold }
  else if c = 4 then { st with is_bold := !st.is_bold, apocount := st.apocount + 1 }
  else if c = 5 then { st with is_bold := !st.is_bold, is_italic := !st.is_italic }
  else if 5 < c then
    { st with is_bold := !st.is_bold, is_italic := !st.is_italic,
              apocount := st.apocount + (c - 5) }
  else st

/-- Modelled from the spec: `styleanalyzer.compute_path` — the sequence of
quote states after each apostrophe run of one line. -/
def compute_path (counts : List Nat) : List QState :=
  (counts.scanl quoteStep ⟨0, false, false⟩).tail

/-- The rewrite `finish()` applies to one recorded style token given its
quote state and the previous cumulative apostrophe count
(src/src/mwlib/refine/core.py lines 247-266). -/
def applyQState (st : QState) (last : Nat) (t : UToken) : UToken :=
  let apos := st.apocount - last
  let t1 :=
    if apos ≠ 0 then
      t.withChildren (tok .t_text (String.mk (List.replicate apos '\'')) :: t.children)
    else t
  if st.is_bold && st.is_italic then
    let inner : UToken := .mk .t_complex_style "" t1.children 0 "''" "" "" false ""
    (t1.withCaption "'''").withChildren [inner]
  else if st.is_bold then t1.withCaption "'''"
  else if st.is_italic then t1.withCaption "''"
  else t1.withType .t_complex_node

/-- The `for i, s in enumerate(states)` loop of `finish()`, applied to the
buffer positions of the recorded style tokens. -/
def quoteApplyAll : List UToken → List QState → List Nat → Nat → List UToken
  | left, st :: sts, idx :: idxs, last =>
    quoteApplyAll (modifyAt left idx (applyQState st last)) sts idxs st.apocount
  | left, _, _, _ => left

/-- `ParseSingleQuote.finish` (src/src/mwlib/refine/core.py lines 240-266);
the buffer positions `idxs` of the recorded style tokens stand for the
aliased `self.styles` list. -/
def quoteFinish (left : List UToken) (counts idxs : List Nat) :
    Except String (List UToken) :=
  if counts.length ≠ idxs.length then .error "len(self.counts) != len(self.styles)"
  else .ok (quoteApplyAll left (compute_path counts) idxs 0)

/-- `if self.counts: self.finish()`. -/
def quoteFinishIf (left : List UToken) (counts idxs : List Nat) :
    Except String (List UToken) :=
  if counts.isEmpty then .ok left else quoteFinish left counts idxs

/-- The scanning loop of `ParseSingleQuote.run`.  Python closes a pending
span by resetting `pos`, so the closing apostrophe run (resp. the newline) is
processed a second time; both replays are inlined in the corresponding
branches. -/
def sqLoop (left : List UToken) (start : Option Nat) (counts idxs : List Nat) :
    List UToken → Except String (List UToken)
  | [] =>
    match start with
    | some s =>
      quoteFinishIf (left.take s ++ [tokc .t_complex_style (left.drop (s+1))])
        counts (idxs ++ [s])
    | none => quoteFinishIf left counts idxs
  | t :: rest =>
    if t.ty = .t_singlequote then
      match start with
      | none =>
        sqLoop (left ++ [t]) (some left.length) (counts ++ [t.text.length]) idxs rest
      | some s =>
        let left' := left.take s ++ [tokc .t_complex_style (left.drop (s+1))]
        sqLoop (left' ++ [t]) (some left'.length) (counts ++ [t.text.length])
          (idxs ++ [s]) rest
    else if t.ty = .t_newline then
      match start with
      | some s =>
        let left' := left.take s ++ [tokc .t_complex_style (left.drop (s+1))]
        match quoteFinishIf left' counts (idxs ++ [s]) with
        | .error e => .error e
        | .ok fin => sqLoop (fin ++ [t]) none [] [] rest
      | none =>
        match quoteFinishIf (left ++ [t]) counts idxs with
        | .error e => .error e
        | .ok fin => sqLoop fin none [] [] rest
    else sqLoop (left ++ [t]) start counts idxs rest

/-- `ParseSingleQuote.run` on one token buffer. -/
def ParseSingleQuote.run (tokens : List UToken) : Except String (List UToken) :=
  sqLoop [] none [] [] tokens

/-- A rewritten style span: `t_complex_style` with caption `cap`. -/
def styleTok (cap : String) (cs : List UToken) : UToken :=
  .mk .t_complex_style "" cs 0 cap "" "" false ""

/-- C3: the quote disambiguation rules.  Count 2 toggles italic, count 3
toggles bold, count 4 acts as count 3 with one extra literal apostrophe,
count 5 toggles both, counts above 5 toggle both with `count - 5` extra
literal apostrophes; the single-run count lists `[2]`, `[5]`, `[4]`, `[7]`
respectively produce one italic span with no leftover apostrophes, one
bold+italic span, a bold span with exactly one leading literal apostrophe,
and a bold+italic span with exactly two leading literal apostrophes. -/
theorem C3_quote_disambiguation :
    ((∀ st, quoteStep st 2 = { st with is_italic := !st.is_italic }) ∧
     (∀ st, quoteStep st 3 = { st with is_bold := !st.is_bold }) ∧
     (∀ st, quoteStep st 4 = { st with is_bold := !st.is_bold,
                                       apocount := st.apocount + 1 }) ∧
     (∀ st, quoteStep st 5 = { st with is_bold := !st.is_bold,
                                       is_italic := !st.is_italic }) ∧
     (∀ st c, 5 < c → quoteStep st c
        = { st with is_bold := !st.is_bold, is_italic := !st.is_italic,
                    apocount := st.apocount + (c - 5) })) ∧
    ParseSingleQuote.run [tok .t_singlequote "''", tok .t_text "x"]
      = .ok [styleTok "''" [tok .t_text "x"]] ∧
    ParseSingleQuote.run [tok .t_singlequote "'''''", tok .t_text "x"]
      = .ok [styleTok "'''" [styleTok "''" [tok .t_text "x"]]] ∧
    ParseSingleQuote.run [tok .t_singlequote "''''", tok .t_text "x"]
      = .ok [styleTok "'''" [tok .t_text "'", tok .t_text "x"]] ∧
    ParseSingleQuote.run [tok .t_singlequote "'''''''", tok .t_text "x"]
      = .ok [styleTok "'''" [styleTok "''" [tok .t_text "''", tok .t_text "x"]]] := by
  refine ⟨⟨fun st => rfl, fun st => rfl, fun st => rfl, fun st => rfl, ?_⟩, rfl, rfl, rfl, rfl⟩
  intro st c hc
  have h2 : c ≠ 2 := by omega
  have h3 : c ≠ 3 := by omega
  have h4 : c ≠ 4 := by omega
  have h5 : c ≠ 5 := by omega
  simp [quoteStep, h2, h3, h4, h5, hc]

/-- Witness for C3: the `count > 5` rule instantiated at count 7 from the
initial state. -/
theorem C3_quote_disambiguation_witness :
    quoteStep ⟨0, false, false⟩ 7
      = { apocount := 2, is_bold := true, is_italic := true } := by
  have h := C3_quote_disambiguation.1.2.2.2.2 ⟨0, false, false⟩ 7 (by omega)
  simpa using h

/-! ### The macro brace parser (src/src/mwlib/templ/parser.py)

Macro AST values are Python strings, `list`s, `tuple`s and instances of the
`Node` tuple subclass and its subclasses (`Template`, `Variable`, `IfNode`,
`SwitchNode`, and the classes of `magic_nodes.registry`).  `eqmark`
(mwlib.templ.marks) is a string equal to `"="` that `optimize` distinguishes
by object identity; it is a separate constructor here. -/

/-- A macro AST value. -/
inductive TV where
  | str (s : String)
  | eqm
  | tup (xs : List TV)
  | lst (xs : List TV)
  | node (xs : List TV)
  | template (xs : List TV)
  | vari (xs : List TV)
  | ifnode (xs : List TV)
  | switch (xs : List TV)
  | magicN (name : String) (xs : List TV)

mutual

/-- Size measure of a macro AST value: every constructor, including a whole
string leaf, counts 1. -/
def msize : TV → Nat
  | .str _ => 1
  | .eqm => 1
  | .tup xs => msizeList xs + 1
  | .lst xs => msizeList xs + 1
  | .node xs => msizeList xs + 1
  | .template xs => msizeList xs + 1
  | .vari xs => msizeList xs + 1
  | .ifnode xs => msizeList xs + 1
  | .switch xs => msizeList xs + 1
  | .magicN _ xs => msizeList xs + 1

def msizeList : List TV → Nat
  | [] => 0
  | x :: xs => msize x + msizeList xs

end

theorem msize_pos : ∀ x, 0 < msize x := by
  intro x
  cases x <;> simp [msize]

theorem msize_le_of_mem {x : TV} : ∀ {xs : List TV}, x ∈ xs → msize x ≤ msizeList xs := by
  intro xs h
  induction xs with
  | nil => cases h
  | cons y ys ih =>
    rcases List.mem_cons.mp h with rfl | hy
    · simp only [msizeList]; omega
    · have h2 := ih hy
      simp only [msizeList]
      omega

/-- The string-merging loop of `optimize`'s list branch
(src/src/mwlib/templ/parser.py lines 58-70): adjacent plain-string children
are joined; `eqmark` and non-strings are kept and break a run. -/
def combine : List TV → List TV
  | [] => []
  | .str s :: rest =>
    match combine rest with
    | .str t :: rs => .str (s ++ t) :: rs
    | rs => .str s :: rs
  | x :: rest => x :: combine rest

theorem msizeList_combine_le : ∀ l, msizeList (combine l) ≤ msizeList l := by
  intro l
  induction l with
  | nil => simp [combine]
  | cons x rest ih =>
    cases x with
    | str s =>
      rcases hc : combine rest with _ | ⟨y, rs⟩
      · rw [hc] at ih
        simp only [combine, hc]
        simp [msizeList, msize] at ih ⊢
        try omega
      · cases y with
        | str t =>
          rw [hc] at ih
          simp only [combine, hc]
          simp [msizeList, msize] at ih ⊢
          try omega
        | eqm =>
          rw [hc] at ih
          simp only [combine, hc]
          simp [msizeList, msize] at ih ⊢
          try omega
        | tup zs =>
          rw [hc] at ih
          simp only [combine, hc]
          simp [msizeList, msize] at ih ⊢
          try omega
        | lst zs =>
          rw [hc] at ih
          simp only [combine, hc]
          simp [msizeList, msize] at ih ⊢
          try omega
        | node zs =>
          rw [hc] at ih
          simp only [combine, hc]
          simp [msizeList, msize] at ih ⊢
          try omega
        | template zs =>
          rw [hc] at ih
          simp only [combine, hc]
          simp [msizeList, msize] at ih ⊢
          try omega
        | vari zs =>
          rw [hc] at ih
          simp only [combine, hc]
          simp [msizeList, msize] at ih ⊢
          try omega
        | ifnode zs =>
          rw [hc] at ih
          simp only [combine, hc]
          simp [msizeList, msize] at ih ⊢
          try omega
        | switch zs =>
          rw [hc] at ih
          simp only [combine, hc]
          simp [msizeList, msize] at ih ⊢
          try omega
        | magicN n zs =>
          rw [hc] at ih
          simp only [combine, hc]
          simp [msizeList, msize] at ih ⊢
          try omega
    | eqm => simp only [combine]; simp [msizeList] at ih ⊢; try omega
    | tup zs => simp only [combine]; simp [msizeList] at ih ⊢; try omega
    | lst zs => simp only [combine]; simp [msizeList] at ih ⊢; try omega
    | node zs => simp only [combine]; simp [msizeList] at ih ⊢; try omega
    | template zs => simp only [combine]; simp [msizeList] at ih ⊢; try omega
    | vari zs => simp only [combine]; simp [msizeList] at ih ⊢; try omega
    | ifnode zs => simp only [combine]; simp [msizeList] at ih ⊢; try omega
    | switch zs => simp only [combine]; simp [msizeList] at ih ⊢; try omega
    | magicN n zs => simp only [combine]; simp [msizeList] at ih ⊢; try omega

/-- `optimize` (src/src/mwlib/templ/parser.py lines 45-80) with an explicit
recursion budget: the Python code re-optimizes the one child left over when
the merging loop collapses a list to a single element, a call that is not
structurally smaller.  `optimize` instantiates the budget with `msize`;
`optF_congr` below shows any budget of at least `msize x` gives the same
answer, so the budget is a proof device, not a behavioural change.
Branch order follows the source: exact tuples map their children; strings are
returned; one-element lists and exact `Node`s collapse to their optimized
single child; `Node` subclasses rebuild with optimized children; the list
branch merges adjacent plain strings, then collapses to the single survivor
or tuple-izes. -/
def optF : Nat → TV → TV
  | 0, x => x
  | fuel+1, x =>
    match x with
    | .str s => .str s
    | .eqm => .eqm
    | .tup xs => .tup (xs.map (optF fuel))
    | .lst [y] => optF fuel y
    | .node [y] => optF fuel y
    | .node xs => .node (xs.map (optF fuel))
    | .template xs => .template (xs.map (optF fuel))
    | .vari xs => .vari (xs.map (optF fuel))
    | .ifnode xs => .ifnode (xs.map (optF fuel))
    | .switch xs => .switch (xs.map (optF fuel))
    | .magicN n xs => .magicN n (xs.map (optF fuel))
    | .lst xs =>
      match combine (xs.map (optF fuel)) with
      | [y] => optF fuel y
      | res => .tup res

/-- One application of `optimize` never increases the size measure. -/
theorem optF_msize_le : ∀ n x, msize (optF n x) ≤ msize x := by
  intro n
  induction n with
  | zero => intro x; simp [optF]
  | succ n ih =>
    have ihList : ∀ xs : List TV, msizeList (xs.map (optF n)) ≤ msizeList xs := by
      intro xs
      induction xs with
      | nil => simp [msizeList]
      | cons z zs ihz =>
        simp only [List.map_cons, msizeList]
        exact Nat.add_le_add (ih z) ihz
    intro x
    cases x with
    | str s => simp [optF, msize]
    | eqm => simp [optF, msize]
    | tup xs =>
      simp only [optF, msize]
      exact Nat.add_le_add_right (ihList xs) 1
    | template xs =>
      simp only [optF, msize]
      exact Nat.add_le_add_right (ihList xs) 1
    | vari xs =>
      simp only [optF, msize]
      exact Nat.add_le_add_right (ihList xs) 1
    | ifnode xs =>
      simp only [optF, msize]
      exact Nat.add_le_add_right (ihList xs) 1
    | switch xs =>
      simp only [optF, msize]
      exact Nat.add_le_add_right (ihList xs) 1
    | magicN nm xs =>
      simp only [optF, msize]
      exact Nat.add_le_add_right (ihList xs) 1
    | node xs =>
      rcases xs with _ | ⟨y, _ | ⟨z, zs⟩⟩
      · simp [optF, msize]
      · simp only [optF]
        have := ih y
        simp [msize, msizeList]
        omega
      · simp only [optF, msize]
        exact Nat.add_le_add_right (ihList (y :: z :: zs)) 1
    | lst xs =>
      rcases xs with _ | ⟨y, _ | ⟨z, zs⟩⟩
      · simp [optF, msize, combine, msizeList]
      · simp only [optF]
        have := ih y
        simp [msize, msizeList]
        omega
      · simp only [optF]
        rcases hres : combine ((y :: z :: zs).map (optF n)) with _ | ⟨w, _ | ⟨v, vs⟩⟩
        · simp [msize, msizeList]
        · have h1 : msize w ≤ msizeList (combine ((y :: z :: zs).map (optF n))) := by
            rw [hres]; simp [msizeList]
          have h2 := msizeList_combine_le ((y :: z :: zs).map (optF n))
          have h3 := ihList (y :: z :: zs)
          have h4 := ih w
          simp [msize]
          omega
        · have h2 := msizeList_combine_le ((y :: z :: zs).map (optF n))
          have h3 := ihList (y :: z :: zs)
          have h1 : msizeList (w :: v :: vs)
              ≤ msizeList (combine ((y :: z :: zs).map (optF n))) := by
            rw [hres]
          simp [msize]
          omega

theorem msizeList_map_optF_le (n : Nat) :
    ∀ xs : List TV, msizeList (xs.map (optF n)) ≤ msizeList xs := by
  intro xs
  induction xs with
  | nil => simp [msizeList]
  | cons z zs ihz =>
    simp only [List.map_cons, msizeList]
    exact Nat.add_le_add (optF_msize_le n z) ihz

/-- Any budget of at least `msize x` computes the same value. -/
theorem optF_congr : ∀ (k : Nat) (x : TV) (n m : Nat), msize x ≤ k →
    msize x ≤ n → msize x ≤ m → optF n x = optF m x := by
  intro k
  induction k with
  | zero => intro x n m hk _ _; exact absurd hk (by have := msize_pos x; omega)
  | succ k ih =>
    intro x n m hk hn hm
    have hx := msize_pos x
    rcases n with _ | n
    · omega
    rcases m with _ | m
    · omega
    have hmap : ∀ xs : List TV, msizeList xs + 1 ≤ k + 1 → msizeList xs + 1 ≤ n + 1 →
        msizeList xs + 1 ≤ m + 1 → xs.map (optF n) = xs.map (optF m) := by
      intro xs h1 h2 h3
      apply List.map_congr_left
      intro c hc
      have hcle := msize_le_of_mem hc
      exact ih c n m (by omega) (by omega) (by omega)
    cases x with
    | str s => simp [optF]
    | eqm => simp [optF]
    | tup xs =>
      simp only [msize] at hk hn hm
      simp only [optF, hmap xs hk hn hm]
    | template xs =>
      simp only [msize] at hk hn hm
      simp only [optF, hmap xs hk hn hm]
    | vari xs =>
      simp only [msize] at hk hn hm
      simp only [optF, hmap xs hk hn hm]
    | ifnode xs =>
      simp only [msize] at hk hn hm
      simp only [optF, hmap xs hk hn hm]
    | switch xs =>
      simp only [msize] at hk hn hm
      simp only [optF, hmap xs hk hn hm]
    | magicN nm xs =>
      simp only [msize] at hk hn hm
      simp only [optF, hmap xs hk hn hm]
    | node xs =>
      rcases xs with _ | ⟨y, _ | ⟨z, zs⟩⟩
      · simp [optF]
      · simp only [optF]
        simp only [msize, msizeList] at hk hn hm
        have hy := msize_pos y
        exact ih y n m (by omega) (by omega) (by omega)
      · simp only [msize] at hk hn hm
        simp only [optF, hmap (y :: z :: zs) hk hn hm]
    | lst xs =>
      rcases xs with _ | ⟨y, _ | ⟨z, zs⟩⟩
      · simp [optF, combine]
      · simp only [optF]
        simp only [msize, msizeList] at hk hn hm
        have hy := msize_pos y
        exact ih y n m (by omega) (by omega) (by omega)
      · simp only [msize] at hk hn hm
        simp only [optF, hmap (y :: z :: zs) hk hn hm]
        rcases hres : combine ((y :: z :: zs).map (optF m)) with _ | ⟨w, _ | ⟨v, vs⟩⟩
        · rfl
        · have h1 : msize w ≤ msizeList (combine ((y :: z :: zs).map (optF m))) := by
            rw [hres]; simp [msizeList]
          have h2 := msizeList_combine_le ((y :: z :: zs).map (optF m))
          have h3 := msizeList_map_optF_le m (y :: z :: zs)
          exact ih w n m (by omega) (by omega) (by omega)
        · rfl

/-- `optimize` (src/src/mwlib/templ/parser.py lines 45-80). -/
def optimize (x : TV) : TV := optF (msize x) x

theorem optF_optimize {x : TV} {n : Nat} (h : msize x ≤ n) : optF n x = optimize x :=
  optF_congr (msize x) x n (msize x) le_rfl h le_rfl

theorem optimize_msize_le (x : TV) : msize (optimize x) ≤ msize x :=
  optF_msize_le (msize x) x

theorem msizeList_map_optimize_le : ∀ xs : List TV,
    msizeList (xs.map optimize) ≤ msizeList xs := by
  intro xs
  induction xs with
  | nil => simp [msizeList]
  | cons z zs ihz =>
    simp only [List.map_cons, msizeList]
    exact Nat.add_le_add (optimize_msize_le z) ihz

theorem map_optF_eq_map_optimize {xs : List TV} {n : Nat} (h : msizeList xs ≤ n) :
    xs.map (optF n) = xs.map optimize := by
  apply List.map_congr_left
  intro c hc
  exact optF_optimize (le_trans (msize_le_of_mem hc) h)

theorem optimize_str (s : String) : optimize (.str s) = .str s := rfl

theorem optimize_eqm : optimize .eqm = .eqm := rfl

theorem optimize_tup (xs : List TV) : optimize (.tup xs) = .tup (xs.map optimize) := by
  simp only [optimize, msize, optF]
  rw [map_optF_eq_map_optimize le_rfl]

theorem optimize_template (xs : List TV) :
    optimize (.template xs) = .template (xs.map optimize) := by
  simp only [optimize, msize, optF]
  rw [map_optF_eq_map_optimize le_rfl]

theorem optimize_vari (xs : List TV) :
    optimize (.vari xs) = .vari (xs.map optimize) := by
  simp only [optimize, msize, optF]
  rw [map_optF_eq_map_optimize le_rfl]

theorem optimize_ifnode (xs : List TV) :
    optimize (.ifnode xs) = .ifnode (xs.map optimize) := by
  simp only [optimize, msize, optF]
  rw [map_optF_eq_map_optimize le_rfl]

theorem optimize_switch (xs : List TV) :
    optimize (.switch xs) = .switch (xs.map optimize) := by
  simp only [optimize, msize, optF]
  rw [map_optF_eq_map_optimize le_rfl]

theorem optimize_magicN (nm : String) (xs : List TV) :
    optimize (.magicN nm xs) = .magicN nm (xs.map optimize) := by
  simp only [optimize, msize, optF]
  rw [map_optF_eq_map_optimize le_rfl]

theorem optimize_node_single (y : TV) : optimize (.node [y]) = optimize y := by
  simp only [optimize, msize, msizeList, optF]
  exact optF_optimize (by omega)

theorem optimize_lst_single (y : TV) : optimize (.lst [y]) = optimize y := by
  simp only [optimize, msize, msizeList, optF]
  exact optF_optimize (by omega)

theorem optimize_node_pair (y z : TV) (zs : List TV) :
    optimize (.node (y :: z :: zs)) = .node ((y :: z :: zs).map optimize) := by
  simp only [optimize, msize, optF]
  rw [map_optF_eq_map_optimize le_rfl]

theorem optimize_node_nil : optimize (.node ([] : List TV)) = .node [] := rfl

theorem optimize_lst_nil : optimize (.lst ([] : List TV)) = .tup [] := rfl

theorem optimize_lst_pair (y z : TV) (zs : List TV) :
    optimize (.lst (y :: z :: zs))
      = match combine ((y :: z :: zs).map optimize) with
        | [w] => optimize w
        | res => .tup res := by
  simp only [optimize, msize, optF]
  rw [map_optF_eq_map_optimize le_rfl]
  rcases hres : combine ((y :: z :: zs).map optimize) with _ | ⟨w, _ | ⟨v, vs⟩⟩
  · rfl
  · have h1 : msize w ≤ msizeList (combine ((y :: z :: zs).map optimize)) := by
      rw [hres]; simp [msizeList]
    have h2 := msizeList_combine_le ((y :: z :: zs).map optimize)
    have h3 := msizeList_map_optimize_le (y :: z :: zs)
    simp only []
    exact optF_optimize (by simp [msize] at *; omega)
  · rfl

/-- Normal macro AST values: the range of `optimize`.  Lists never survive
(they become tuples or collapse); an exact `Node` never keeps exactly one
child. -/
inductive Norm : TV → Prop where
  | str : ∀ s, Norm (.str s)
  | eqm : Norm .eqm
  | tup : ∀ xs, (∀ x ∈ xs, Norm x) → Norm (.tup xs)
  | node : ∀ xs, xs.length ≠ 1 → (∀ x ∈ xs, Norm x) → Norm (.node xs)
  | template : ∀ xs, (∀ x ∈ xs, Norm x) → Norm (.template xs)
  | vari : ∀ xs, (∀ x ∈ xs, Norm x) → Norm (.vari xs)
  | ifnode : ∀ xs, (∀ x ∈ xs, Norm x) → Norm (.ifnode xs)
  | switch : ∀ xs, (∀ x ∈ xs, Norm x) → Norm (.switch xs)
  | magicN : ∀ n xs, (∀ x ∈ xs, Norm x) → Norm (.magicN n xs)

theorem combine_norm : ∀ l : List TV, (∀ z ∈ l, Norm z) → ∀ z ∈ combine l, Norm z := by
  intro l
  induction l with
  | nil => intro _ z hz; simp [combine] at hz
  | cons x rest ih =>
    intro hall z hz
    have hx : Norm x := hall x (by simp)
    have hrest : ∀ z ∈ rest, Norm z := fun z hz => hall z (by simp [hz])
    cases x with
    | str s =>
      rcases hc : combine rest with _ | ⟨y, rs⟩
      · rw [combine, hc] at hz
        simp at hz
        subst hz
        exact .str s
      · cases y with
        | str t =>
          rw [combine, hc] at hz
          rcases List.mem_cons.mp hz with rfl | hmem
          · exact .str _
          · exact ih hrest _ (by rw [hc]; simp [hmem])
        | eqm =>
          rw [combine, hc] at hz
          rcases List.mem_cons.mp hz with rfl | hmem
          · exact .str s
          · exact ih hrest _ (by rw [hc]; exact hmem)
        | tup zs =>
          rw [combine, hc] at hz
          rcases List.mem_cons.mp hz with rfl | hmem
          · exact .str s
          · exact ih hrest _ (by rw [hc]; exact hmem)
        | lst zs =>
          rw [combine, hc] at hz
          rcases List.mem_cons.mp hz with rfl | hmem
          · exact .str s
          · exact ih hrest _ (by rw [hc]; exact hmem)
        | node zs =>
          rw [combine, hc] at hz
          rcases List.mem_cons.mp hz with rfl | hmem
          · exact .str s
          · exact ih hrest _ (by rw [hc]; exact hmem)
        | template zs =>
          rw [combine, hc] at hz
          rcases List.mem_cons.mp hz with rfl | hmem
          · exact .str s
          · exact ih hrest _ (by rw [hc]; exact hmem)
        | vari zs =>
          rw [combine, hc] at hz
          rcases List.mem_cons.mp hz with rfl | hmem
          · exact .str s
          · exact ih hrest _ (by rw [hc]; exact hmem)
        | ifnode zs =>
          rw [combine, hc] at hz
          rcases List.mem_cons.mp hz with rfl | hmem
          · exact .str s
          · exact ih hrest _ (by rw [hc]; exact hmem)
        | switch zs =>
          rw [combine, hc] at hz
          rcases List.mem_cons.mp hz with rfl | hmem
          · exact .str s
          · exact ih hrest _ (by rw [hc]; exact hmem)
        | magicN nm zs =>
          rw [combine, hc] at hz
          rcases List.mem_cons.mp hz with rfl | hmem
          · exact .str s
          · exact ih hrest _ (by rw [hc]; exact hmem)
    | eqm =>
      rw [show combine (TV.eqm :: rest) = TV.eqm :: combine rest from rfl] at hz
      rcases List.mem_cons.mp hz with rfl | hmem
      · exact hx
      · exact ih hrest _ hmem
    | tup zs =>
      rw [show combine (TV.tup zs :: rest) = TV.tup zs :: combine rest from rfl] at hz
      rcases List.mem_cons.mp hz with rfl | hmem
      · exact hx
      · exact ih hrest _ hmem
    | lst zs =>
      rw [show combine (TV.lst zs :: rest) = TV.lst zs :: combine rest from rfl] at hz
      rcases List.mem_cons.mp hz with rfl | hmem
      · exact hx
      · exact ih hrest _ hmem
    | node zs =>
      rw [show combine (TV.node zs :: rest) = TV.node zs :: combine rest from rfl] at hz
      rcases List.mem_cons.mp hz with rfl | hmem
      · exact hx
      · exact ih hrest _ hmem
    | template zs =>
      rw [show combine (TV.template zs :: rest) = TV.template zs :: combine rest from rfl] at hz
      rcases List.mem_cons.mp hz with rfl | hmem
      · exact hx
      · exact ih hrest _ hmem
    | vari zs =>
      rw [show combine (TV.vari zs :: rest) = TV.vari zs :: combine rest from rfl] at hz
      rcases List.mem_cons.mp hz with rfl | hmem
      · exact hx
      · exact ih hrest _ hmem
    | ifnode zs =>
      rw [show combine (TV.ifnode zs :: rest) = TV.ifnode zs :: combine rest from rfl] at hz
      rcases List.mem_cons.mp hz with rfl | hmem
      · exact hx
      · exact ih hrest _ hmem
    | switch zs =>
      rw [show combine (TV.switch zs :: rest) = TV.switch zs :: combine rest from rfl] at hz
      rcases List.mem_cons.mp hz with rfl | hmem
      · exact hx
      · exact ih hrest _ hmem
    | magicN nm zs =>
      rw [show combine (TV.magicN nm zs :: rest) = TV.magicN nm zs :: combine rest from rfl] at hz
      rcases List.mem_cons.mp hz with rfl | hmem
      · exact hx
      · exact ih hrest _ hmem

/-- `optimize` only produces normal values. -/
theorem norm_optimize (x : TV) : Norm (optimize x) := by
  have H : ∀ k x, msize x ≤ k → Norm (optimize x) := by
    intro k
    induction k with
    | zero => intro x hx; exact absurd hx (by have := msize_pos x; omega)
    | succ k ih =>
      intro x hx
      have hmem : ∀ xs : List TV, msize x = msizeList xs + 1 →
          ∀ z ∈ xs.map optimize, Norm z := by
        intro xs hsz z hz
        rcases List.mem_map.mp hz with ⟨c, hc, rfl⟩
        have := msize_le_of_mem hc
        exact ih c (by omega)
      cases x with
      | str s => exact .str s
      | eqm => exact .eqm
      | tup xs => rw [optimize_tup]; exact .tup _ (hmem xs rfl)
      | template xs => rw [optimize_template]; exact .template _ (hmem xs rfl)
      | vari xs => rw [optimize_vari]; exact .vari _ (hmem xs rfl)
      | ifnode xs => rw [optimize_ifnode]; exact .ifnode _ (hmem xs rfl)
      | switch xs => rw [optimize_switch]; exact .switch _ (hmem xs rfl)
      | magicN nm xs => rw [optimize_magicN]; exact .magicN _ _ (hmem xs rfl)
      | node xs =>
        rcases xs with _ | ⟨y, _ | ⟨z, zs⟩⟩
        · rw [optimize_node_nil]; exact .node [] (by simp) (by simp)
        · rw [optimize_node_single]
          have := msize_pos y
          exact ih y (by simp [msize, msizeList] at hx; omega)
        · rw [optimize_node_pair]
          exact .node _ (by simp) (hmem (y :: z :: zs) rfl)
      | lst xs =>
        rcases xs with _ | ⟨y, _ | ⟨z, zs⟩⟩
        · rw [optimize_lst_nil]; exact .tup [] (by simp)
        · rw [optimize_lst_single]
          have := msize_pos y
          exact ih y (by simp [msize, msizeList] at hx; omega)
        · rw [optimize_lst_pair]
          have hall : ∀ w ∈ combine ((y :: z :: zs).map optimize), Norm w :=
            combine_norm _ (hmem (y :: z :: zs) rfl)
          rcases hres : combine ((y :: z :: zs).map optimize) with _ | ⟨w, _ | ⟨v, vs⟩⟩
          · exact .tup [] (by simp)
          · have h1 : msize w ≤ msizeList (combine ((y :: z :: zs).map optimize)) := by
              rw [hres]; simp [msizeList]
            have h2 := msizeList_combine_le ((y :: z :: zs).map optimize)
            have h3 := msizeList_map_optimize_le (y :: z :: zs)
            simp only [msize] at hx
            exact ih w (by omega)
          · exact .tup _ (by rw [← hres]; exact hall)
  exact H (msize x) x le_rfl

/-- Normal values are fixed points of `optimize`. -/
theorem optimize_of_norm : ∀ {x : TV}, Norm x → optimize x = x := by
  intro x h
  induction h with
  | str s => rfl
  | eqm => rfl
  | tup xs hxs ih =>
    rw [optimize_tup]
    congr 1
    calc xs.map optimize = xs.map id := List.map_congr_left ih
      _ = xs := List.map_id xs
  | node xs hlen hxs ih =>
    rcases xs with _ | ⟨y, _ | ⟨z, zs⟩⟩
    · rfl
    · exact absurd rfl hlen
    · rw [optimize_node_pair]
      congr 1
      calc (y :: z :: zs).map optimize = (y :: z :: zs).map id := List.map_congr_left ih
        _ = y :: z :: zs := List.map_id _
  | template xs hxs ih =>
    rw [optimize_template]
    congr 1
    calc xs.map optimize = xs.map id := List.map_congr_left ih
      _ = xs := List.map_id xs
  | vari xs hxs ih =>
    rw [optimize_vari]
    congr 1
    calc xs.map optimize = xs.map id := List.map_congr_left ih
      _ = xs := List.map_id xs
  | ifnode xs hxs ih =>
    rw [optimize_ifnode]
    congr 1
    calc xs.map optimize = xs.map id := List.map_congr_left ih
      _ = xs := List.map_id xs
  | switch xs hxs ih =>
    rw [optimize_switch]
    congr 1
    calc xs.map optimize = xs.map id := List.map_congr_left ih
      _ = xs := List.map_id xs
  | magicN nm xs hxs ih =>
    rw [optimize_magicN]
    congr 1
    calc xs.map optimize = xs.map id := List.map_congr_left ih
      _ = xs := List.map_id xs

/-- C5: `optimize` is idempotent, and one application merges adjacent plain
text leaves, collapses singleton `list`/`Node` wrappers, and turns a
finalized (non-collapsing) children list into a tuple. -/
theorem C5_optimize_idempotent :
    (∀ x : TV, optimize (optimize x) = optimize x) ∧
    optimize (.lst [.str "a", .str "b"]) = .str "ab" ∧
    optimize (.lst [.str "a", .eqm, .str "b", .str "c"])
      = .tup [.str "a", .eqm, .str "bc"] ∧
    optimize (.node [.lst [.str "x"]]) = .str "x" :=
  ⟨fun x => optimize_of_norm (norm_optimize x), rfl, rfl, rfl⟩

/-! ### Macro parser tokens and scanner model

`mwlib.templ.scanner` is not under `src/`; the token kinds and the
tokenization are modelled from the spec (§4.1): the parser operates over
brace-aware tokens — `{{`-runs, `}}`-runs, `[[`, `]]`, `|`, `=`, noinclude
markers and literal runs.  The Python token list ends with a `(None, '')`
sentinel; the empty list plays that role here. -/

/-- Token kinds of `mwlib.templ.scanner.Symbols`. -/
inductive Sym where
  | bra_open
  | bra_close
  | link
  | txt
  | noi
  deriving DecidableEq, Repr

/-- A `(type, text)` scanner token. -/
structure STok where
  ty : Sym
  text : String
  deriving DecidableEq, Repr

theorem length_dropWhile_le {α : Type} (p : α → Bool) (l : List α) :
    (l.dropWhile p).length ≤ l.length := by
  induction l with
  | nil => simp
  | cons a as ih =>
    by_cases h : p a
    · simp [List.dropWhile, h]; omega
    · simp [List.dropWhile, h]

/-- Characters that delimit literal runs in the modelled scanner. -/
def templSpecial (c : Char) : Bool :=
  c = '{' || c = '}' || c = '[' || c = ']' || c = '|' || c = '='

/-- Modelled from the spec: the character-level tokenization of
`mwlib.templ.scanner.tokenize` (not under `src/`).  Spec §4.1: runs of two or
more `{` open, runs of two or more `}` close, `[[` / `]]` are link brackets,
`|` and `=` are their own tokens, everything else forms literal runs.
Noinclude markers are not modelled; no claim under verification exercises
them.  The recursion budget (one unit per consumed character suffices) keeps
the definition structurally recursive so that it computes in the kernel. -/
def scanCharsF : Nat → List Char → List STok
  | 0, _ => []
  | fuel+1, cs =>
    match cs with
    | [] => []
    | c :: cs =>
      if c = '{' then
        if 2 ≤ 1 + (cs.takeWhile (fun d => d = '{')).length then
          ⟨.bra_open, String.mk (List.replicate (1 + (cs.takeWhile (fun d => d = '{')).length) '{')⟩ ::
            scanCharsF fuel (cs.dropWhile (fun d => d = '{'))
        else ⟨.txt, "\x7b"⟩ :: scanCharsF fuel cs
      else if c = '}' then
        if 2 ≤ 1 + (cs.takeWhile (fun d => d = '}')).length then
          ⟨.bra_close, String.mk (List.replicate (1 + (cs.takeWhile (fun d => d = '}')).length) '}')⟩ ::
            scanCharsF fuel (cs.dropWhile (fun d => d = '}'))
        else ⟨.txt, "\x7d"⟩ :: scanCharsF fuel cs
      else if c = '[' then
        if cs.head? = some '[' then ⟨.link, "[["⟩ :: scanCharsF fuel cs.tail
        else ⟨.txt, "["⟩ :: scanCharsF fuel cs
      else if c = ']' then
        if cs.head? = some ']' then ⟨.link, "]]"⟩ :: scanCharsF fuel cs.tail
        else ⟨.txt, "]"⟩ :: scanCharsF fuel cs
      else if c = '|' then ⟨.txt, "|"⟩ :: scanCharsF fuel cs
      else if c = '=' then ⟨.txt, "="⟩ :: scanCharsF fuel cs
      else
        ⟨.txt, String.mk (c :: cs.takeWhile (fun d => !templSpecial d))⟩ ::
          scanCharsF fuel (cs.dropWhile (fun d => !templSpecial d))

def scanChars (cs : List Char) : List STok := scanCharsF (cs.length + 1) cs

/-- Modelled from the spec: `mwlib.templ.scanner.tokenize`. -/
def templScan (s : String) : List STok := scanChars s.toList

/-- Well-formed macro token streams: brace tokens carry at least two braces.
This is what the scanner guarantees and what `parse_open_brace` relies on. -/
def WfSTok (t : STok) : Prop :=
  (t.ty = .bra_open → 2 ≤ t.text.length) ∧ (t.ty = .bra_close → 2 ≤ t.text.length)

def WfStream (s : List STok) : Prop := ∀ t ∈ s, WfSTok t

instance : DecidablePred WfSTok := fun t => by
  unfold WfSTok; infer_instance

instance (s : List STok) : Decidable (WfStream s) := by
  unfold WfStream; infer_instance

theorem wfSTok_txt (s : String) : WfSTok ⟨Sym.txt, s⟩ :=
  ⟨fun h => Sym.noConfusion h, fun h => Sym.noConfusion h⟩

theorem wfSTok_link (s : String) : WfSTok ⟨Sym.link, s⟩ :=
  ⟨fun h => Sym.noConfusion h, fun h => Sym.noConfusion h⟩

theorem wf_scanCharsF : ∀ (fuel : Nat) (cs : List Char), WfStream (scanCharsF fuel cs) := by
  intro fuel
  induction fuel with
  | zero => intro cs t ht; simp [scanCharsF] at ht
  | succ fuel ih =>
    intro cs
    match cs with
    | [] => intro t ht; simp [scanCharsF] at ht
    | c :: cs' =>
      rw [scanCharsF]
      split_ifs with h1 h2 h3 h4 h5 h6 h7 h8 h9 h10
      all_goals intro t ht
      all_goals rcases List.mem_cons.mp ht with rfl | hmem
      all_goals first
        | exact ih _ t hmem
        | exact wfSTok_txt _
        | exact wfSTok_link _
        | (refine ⟨fun _ => ?_, fun h => Sym.noConfusion h⟩
           simpa [String.length] using h2)
        | (refine ⟨fun h => Sym.noConfusion h, fun _ => ?_⟩
           simpa [String.length] using h4)

theorem wf_scanChars (cs : List Char) : WfStream (scanChars cs) :=
  wf_scanCharsF _ _

mutual

/-- Rendering of a macro AST value for development diagnostics. -/
def TV.reprTV : TV → String
  | .str s => "str " ++ reprStr s
  | .eqm => "eqm"
  | .tup xs => "tup [" ++ TV.reprTVs xs ++ "]"
  | .lst xs => "lst [" ++ TV.reprTVs xs ++ "]"
  | .node xs => "node [" ++ TV.reprTVs xs ++ "]"
  | .template xs => "Template [" ++ TV.reprTVs xs ++ "]"
  | .vari xs => "Variable [" ++ TV.reprTVs xs ++ "]"
  | .ifnode xs => "IfNode [" ++ TV.reprTVs xs ++ "]"
  | .switch xs => "SwitchNode [" ++ TV.reprTVs xs ++ "]"
  | .magicN n xs => "Magic " ++ reprStr n ++ " [" ++ TV.reprTVs xs ++ "]"

def TV.reprTVs : List TV → String
  | [] => ""
  | [x] => TV.reprTV x
  | x :: xs => TV.reprTV x ++ ", " ++ TV.reprTVs xs

end

instance : ToString TV := ⟨TV.reprTV⟩

/-- The children of a macro AST value under Python iteration (`list(node)`,
`for child in node`); strings are not iterated this way by the code paths
embedded here. -/
def TV.childrenL : TV → List TV
  | .str _ => []
  | .eqm => []
  | .tup xs => xs
  | .lst xs => xs
  | .node xs => xs
  | .template xs => xs
  | .vari xs => xs
  | .ifnode xs => xs
  | .switch xs => xs
  | .magicN _ xs => xs

/-- `s.split(":")[0]`: the part before the first colon (whole string when no
colon occurs). -/
def beforeFirstColon (s : String) : String :=
  String.mk (s.toList.takeWhile (fun c => c ≠ ':'))

/-- `s.split(":", 1)[1]`: the part after the first colon.  Callers only use
it when a colon is present; without one it yields `""` (Python would raise,
a case unreachable from the embedded call sites). -/
def afterFirstColon (s : String) : String :=
  String.mk ((s.toList.dropWhile (fun c => c ≠ ':')).drop 1)

def hasColon (s : String) : Bool := s.toList.contains ':'

def hasBracket (s : String) : Bool :=
  s.toList.contains '[' || s.toList.contains ']'

/-- Python `s.strip()`: drop leading and trailing whitespace (characterwise,
so that it computes in the kernel, unlike `String.trim`). -/
def pyTrim (s : String) : String :=
  String.mk (((s.toList.dropWhile Char.isWhitespace).reverse.dropWhile
    Char.isWhitespace).reverse)

/-- Python `s.lower()`. -/
def pyToLower (s : String) : String :=
  String.mk (s.toList.map Char.toLower)

/-- Python `s.startswith(pre)` / the regex anchor `^pre`. -/
def pyStartsWith (s pre : String) : Bool :=
  List.isPrefixOf pre.toList s.toList

/-- Python `s[n:]`. -/
def pyDrop (s : String) (n : Nat) : String :=
  String.mk (s.toList.drop n)

/-- Siteinfo restricted to what `Parser.__init__` reads: the magic-word
name/aliases table. -/
structure SiteInfo where
  magicwords : List (String × List String)
  deriving DecidableEq, Repr

/-- Modelled from the spec: `mwlib.siteinfo.get_siteinfo("en")` (not under
`src/`) — the default English configuration; only the `if`/`switch` alias
lists are consulted by the parser, with the canonical names as aliases. -/
def enSiteInfo : SiteInfo := ⟨[("if", ["if"]), ("switch", ["switch"])]⟩

/-- Modelled from the spec: the registered magic-word prefixes of
`mwlib.templ.magic_nodes.registry` (not under `src/`).  No claim under
verification depends on its contents. -/
def magic_nodes_registry : List String := []

/-- The configuration `Parser.__init__` derives from `siteinfo`
(src/src/mwlib/templ/parser.py lines 99-110): the alias alternations behind
`name2rx` (defaults `^#if:` / `^#switch:` when the siteinfo has no entry) and
the alias map of `AliasMap` (lines 16-39). -/
structure PCfg where
  ifAliases : List String
  switchAliases : List String
  aliasPairs : List (String × String)
  registry : List String
  deriving DecidableEq, Repr

def mkPCfg (si : SiteInfo) : PCfg :=
  { ifAliases := ((si.magicwords.lookup "if").getD ["if"]),
    switchAliases := ((si.magicwords.lookup "switch").getD ["switch"]),
    aliasPairs :=
      si.magicwords.foldl
        (fun acc p => p.2.foldl (fun acc a => (a, p.1) :: acc) acc) [],
    registry := magic_nodes_registry }

/-- `AliasMap.resolve_magic_alias` (src/src/mwlib/templ/parser.py
lines 33-39). -/
def resolve_magic_alias (cfg : PCfg) (name : String) : Option String :=
  if pyStartsWith name "#" then
    (cfg.aliasPairs.lookup (pyDrop name 1)).map (fun r => "#" ++ r)
  else cfg.aliasPairs.lookup name

/-- `name2rx` matching: `^#(alias1|alias2|...):` applied to the stripped,
lowered first child. -/
def matchPrefixAliases (aliases : List String) (s : String) : Bool :=
  aliases.any (fun a => pyStartsWith s ("#" ++ a ++ ":"))

/-- `Parser.variable_from_children` (src/src/mwlib/templ/parser.py
lines 118-129): split the collected children at the first `"|"`; the one or
two slices become the (list-valued) components of the `Variable` node. -/
def variable_from_children (children : List TV) : TV :=
  match children.findIdx? (fun c => match c with | .str s => decide (s = "|") | _ => false) with
  | none => .vari [.lst children]
  | some idx => .vari [.lst (children.take idx), .lst (children.drop (idx + 1))]

/-- The argument-splitting loop of `Parser._parse_args`
(src/src/mwlib/templ/parser.py lines 182-206): split on `|` at link depth 0,
replace `=` at link depth 0 by `eqmark`, keep everything else. -/
def parseArgsLoop : List TV → List (List TV) → List TV → Nat → Bool → List (List TV)
  | [], args, arg, _, append_arg =>
    if append_arg || !arg.isEmpty then args ++ [arg] else args
  | c :: cs, args, arg, lc, append_arg =>
    match c with
    | .str s =>
      if s = "[[" then parseArgsLoop cs args (arg ++ [c]) (lc + 1) append_arg
      else if s = "]]" then
        parseArgsLoop cs args (arg ++ [c]) (if 0 < lc then lc - 1 else lc) append_arg
      else if s = "|" then
        if lc = 0 then parseArgsLoop cs (args ++ [arg]) [] lc true
        else parseArgsLoop cs args (arg ++ [c]) lc append_arg
      else if s = "=" then
        if lc = 0 then parseArgsLoop cs args (arg ++ [.eqm]) lc append_arg
        else parseArgsLoop cs args (arg ++ [c]) lc append_arg
      else parseArgsLoop cs args (arg ++ [c]) lc append_arg
    | _ => parseArgsLoop cs args (arg ++ [c]) lc append_arg

/-- `Parser._parse_args`: each collected argument list is optimized. -/
def parse_args (children : List TV) (append_arg : Bool) : List TV :=
  (parseArgsLoop children [] [] 0 append_arg).map (fun a => optimize (.lst a))

/-- Whitespace-only string test (`not x.strip()`); `eqmark` strips to `"="`,
which is non-empty. -/
def isWsStr : TV → Bool
  | .str s => decide (pyTrim s = "")
  | _ => false

/-- `Parser._strip_ws` (src/src/mwlib/templ/parser.py lines 146-158): strip a
string condition; otherwise drop a leading and a trailing whitespace-only
string element and return a tuple. -/
def strip_ws (cond : TV) : TV :=
  match cond with
  | .str s => .str (pyTrim s)
  | .eqm => .str "="
  | c =>
    let l := c.childrenL
    let l := if l.headD .eqm |> isWsStr then l.drop 1 else l
    let l := if l.getLastD .eqm |> isWsStr then l.dropLast else l
    .tup l

/-- `children[0] = children[0].split(":", 1)[1]` as done by the `if`,
`switch` and magic node builders; the embedded call sites guarantee a string
head containing a colon. -/
def headColonSplit (children : List TV) : List TV :=
  match children with
  | .str s :: rest => .str (afterFirstColon s) :: rest
  | other => other

/-- `Parser.if_node_from_children` (src/src/mwlib/templ/parser.py
lines 167-175). -/
def if_node_from_children (children : List TV) : TV :=
  let args := parse_args (headColonSplit children) false
  let cond := strip_ws (optimize (args.headD (.lst [])))
  .ifnode (cond :: args.tail)

/-- `Parser.switch_node_from_children` (src/src/mwlib/templ/parser.py
lines 160-165). -/
def switch_node_from_children (children : List TV) : TV :=
  let args := parse_args (headColonSplit children) false
  let value := strip_ws (optimize (args.headD (.lst [])))
  .switch [value, .tup args.tail]

/-- `Parser.magic_node_from_children` (src/src/mwlib/templ/parser.py
lines 177-180). -/
def magic_node_from_children (name : String) (children : List TV) : TV :=
  .magicN name (parse_args (headColonSplit children) false)

/-- The scanning loop of `Parser._is_good_name`
(src/src/mwlib/templ/parser.py lines 208-226): walk the string children,
truncate the first colon-carrying child at its colon and stop after it,
rejecting when a `[` or `]` is seen on the way. -/
def isGoodNameLoop : List TV → Bool
  | [] => true
  | c :: cs =>
    match c with
    | .str s =>
      let child := if hasColon s then beforeFirstColon s else s
      if hasBracket child then false
      else if hasColon s then true
      else isGoodNameLoop cs
    | .eqm =>
      isGoodNameLoop cs
    | _ => isGoodNameLoop cs

/-- `Parser._is_good_name`. -/
def is_good_name (node : TV) : Bool :=
  match node with
  | .str s => isGoodNameLoop [.str s]
  | .eqm => isGoodNameLoop [.eqm]
  | n => isGoodNameLoop n.childrenL

/-- The name-extraction loop of `Parser.template_from_children`
(src/src/mwlib/templ/parser.py lines 246-254): children before the first
`"|"`; `idx` reproduces Python's `enumerate` value after the loop. -/
def nameSplit (children : List TV) : List TV × Nat × Bool :=
  match children.findIdx? (fun c => match c with | .str s => decide (s = "|") | _ => false) with
  | some j => (children.take j, j, true)
  | none => (children, children.length - 1, false)

/-- `Parser.template_from_children` (src/src/mwlib/templ/parser.py
lines 228-265). -/
def template_from_children (cfg : PCfg) (children : List TV) : TV :=
  let special : Option TV :=
    match children with
    | .str s :: _ =>
      let slt := pyToLower (pyTrim s)
      if matchPrefixAliases cfg.ifAliases slt then some (if_node_from_children children)
      else if matchPrefixAliases cfg.switchAliases slt then
        some (switch_node_from_children children)
      else if hasColon slt then
        let nm := beforeFirstColon slt
        let nm := (resolve_magic_alias cfg nm).getD nm
        if cfg.registry.contains nm then some (magic_node_from_children nm children)
        else none
      else none
    | _ => none
  match special with
  | some t => t
  | none =>
    let ns := nameSplit children
    let name := optimize (.lst ns.1)
    let name := match name with
      | .str s => .str (pyTrim s)
      | .eqm => .str "="
      | x => x
    if is_good_name name then
      .template [name, .tup (parse_args (children.drop (ns.2.1 + 1)) ns.2.2)]
    else .node ([.str "\x7b\x7b"] ++ children ++ [.str "\x7d\x7d"])

/-- Python `s[:n]` on strings. -/
def pyTake (s : String) (n : Nat) : String := String.mk (s.toList.take n)

theorem pyTake_length (s : String) (n : Nat) : (pyTake s n).length = min n s.length := by
  show (s.data.take n).length = min n s.data.length
  exact List.length_take n s.data

/-- `Parser._consume_closing_braces` (src/src/mwlib/templ/parser.py
lines 131-144): consume `num` braces from the current token, which must be a
`bra_close` of at least that many braces; a remainder of exactly one brace
becomes a plain text token, a longer remainder stays a `bra_close`. -/
def consume_closing_braces (num : Nat) : List STok → Except String (List STok)
  | [] => .error "expected closing braces"
  | t :: rest =>
    if t.ty ≠ .bra_close ∨ t.text.length < num then .error "expected closing braces"
    else
      let newlen := t.text.length - num
      if newlen = 0 then .ok rest
      else if newlen = 1 then .ok (⟨.txt, pyTake t.text newlen⟩ :: rest)
      else .ok (⟨t.ty, pyTake t.text newlen⟩ :: rest)

/-- `if numbraces: n.insert(0, "{" * numbraces)` at the end of
`parse_open_brace`. -/
def finishOB (nb : Nat) (n : List TV) : List TV :=
  if nb ≠ 0 then .str (String.mk (List.replicate nb '{')) :: n else n

/-- The link-depth update of `parse_open_brace`'s text branch. -/
def obLinkStep (s : String) (lc : Nat) : Nat :=
  if s = "[[" then lc + 1
  else if s = "]]" ∧ 0 < lc then lc - 1
  else lc

/-- The closing-brace handling of `parse_open_brace`
(src/src/mwlib/templ/parser.py lines 283-297), reached at link depth 0: a
closing run of length 2 — or an open run of exactly 2 — closes a Template by
consuming 2 braces, anything else closes a Variable by consuming 3; the
collected children are replaced by the single new node and the open count
drops by what was consumed. -/
def closeStep (cfg : PCfg) (nb : Nat) (n : List TV) (t : STok)
    (rest : List STok) : Except String (List TV × Nat × List STok) :=
  if t.text.length = 2 ∨ nb = 2 then
    (consume_closing_braces 2 (t :: rest)).map
      (fun r => ([template_from_children cfg n], nb - 2, r))
  else
    (consume_closing_braces 3 (t :: rest)).map
      (fun r => ([variable_from_children n], nb - 3, r))

/-- `Parser.parse_open_brace` (src/src/mwlib/templ/parser.py lines 267-314)
with an explicit recursion budget (`parse` instantiates one that
`pobLoop_ok` shows is always enough).  `nb` is the length of the already
consumed opening brace run, `lc` the link depth, `n` the collected children;
the returned pair is Python's result list plus the remaining token stream
(`[]` plays the `(None, '')` sentinel).  After a close that leaves fewer than
two open braces the loop breaks; leftover open braces are re-inserted as a
literal `{`-run by `finishOB`. -/
def pobLoop (cfg : PCfg) : Nat → Nat → Nat → List TV → List STok →
    Except String (List TV × List STok)
  | 0, _, _, _, _ => .error "recursion budget exhausted"
  | fuel+1, nb, lc, n, stream =>
    match stream with
    | [] => .ok (finishOB nb n, [])
    | t :: rest =>
      match t.ty with
      | .bra_open =>
        match pobLoop cfg fuel t.text.length 0 [] rest with
        | .error e => .error e
        | .ok (sub, rest') => pobLoop cfg fuel nb lc (n ++ [.lst sub]) rest'
      | .noi => pobLoop cfg fuel nb lc n rest
      | .bra_close =>
        if lc = 0 then
          match closeStep cfg nb n t rest with
          | .error e => .error e
          | .ok (n', nb', rest') =>
            if nb' < 2 then .ok (finishOB nb' n', rest')
            else pobLoop cfg fuel nb' lc n' rest'
        else pobLoop cfg fuel nb (obLinkStep t.text lc) (n ++ [.str t.text]) rest
      | _ => pobLoop cfg fuel nb (obLinkStep t.text lc) (n ++ [.str t.text]) rest

/-- The toplevel loop of `Parser.parse` (src/src/mwlib/templ/parser.py
lines 330-341). -/
def parseLoop (cfg : PCfg) : Nat → List TV → List STok → Except String (List TV)
  | 0, _, _ => .error "recursion budget exhausted"
  | fuel+1, n, stream =>
    match stream with
    | [] => .ok n
    | t :: rest =>
      match t.ty with
      | .bra_open =>
        match pobLoop cfg fuel t.text.length 0 [] rest with
        | .error e => .error e
        | .ok (sub, rest') => parseLoop cfg fuel (n ++ [.lst sub]) rest'
      | .noi => parseLoop cfg fuel n rest
      | _ => parseLoop cfg fuel (n ++ [.str t.text]) rest

/-- Size of a macro token stream: enough budget for every loop iteration
(each one consumes a token or at least two characters of one). -/
def ssize (s : List STok) : Nat :=
  (s.map (fun t => t.text.length + 1)).sum

/-- `Parser.parse` on an already tokenized stream: collect children, then
`optimize`. -/
def parseToks (cfg : PCfg) (toks : List STok) : Except String TV :=
  (parseLoop cfg (ssize toks + 1) [] toks).map (fun n => optimize (.lst n))

/-- `parse(txt, ...)` (src/src/mwlib/templ/parser.py lines 316-347, 350-353)
over the modelled scanner, cache disabled. -/
def parseTxt (cfg : PCfg) (txt : String) : Except String TV :=
  parseToks cfg (templScan txt)

/-- `Parser.__init__` handling of the `siteinfo` argument
(src/src/mwlib/templ/parser.py lines 87-110): a missing siteinfo is replaced
by `get_siteinfo("en")`; no error is ever raised. -/
def Parser.init (siteinfo : Option SiteInfo) : Except String PCfg :=
  match siteinfo with
  | none => .ok (mkPCfg enSiteInfo)
  | some si => .ok (mkPCfg si)

/-- The memoizing path of `Parser.parse` (src/src/mwlib/templ/parser.py
lines 316-322 and 344-345) with `use_cache` enabled.  The class-level
`_cache` is keyed by the digest of the input text alone; the digest is
modelled by the text itself (`sha256` is injective on the inputs of
interest), and the capacity bound of the LRU cache is not modelled. -/
def parseCached (cfg : PCfg) (cache : List (String × TV)) (txt : String) :
    Except String TV × List (String × TV) :=
  match cache.lookup txt with
  | some v => (.ok v, cache)
  | none =>
    match parseTxt cfg txt with
    | .ok v => (.ok v, (txt, v) :: cache)
    | .error e => (.error e, cache)

theorem ssize_cons (t : STok) (rest : List STok) :
    ssize (t :: rest) = t.text.length + 1 + ssize rest := by
  simp [ssize]
  try omega

theorem consume_ok {num : Nat} {t : STok} {rest : List STok}
    (hty : t.ty = .bra_close) (hlen : num ≤ t.text.length)
    (hnum : 2 ≤ num) (hwf : WfStream (t :: rest)) :
    ∃ r, consume_closing_braces num (t :: rest) = .ok r ∧ WfStream r ∧
      ssize r + 2 ≤ ssize (t :: rest) := by
  have hwfr : WfStream rest := fun x hx => hwf x (by simp [hx])
  have hcond : ¬(t.ty ≠ .bra_close ∨ t.text.length < num) := by
    push_neg
    exact ⟨by simp [hty], hlen⟩
  simp only [consume_closing_braces]
  rw [if_neg hcond]
  by_cases h0 : t.text.length - num = 0
  · simp only [h0, if_pos rfl]
    refine ⟨rest, rfl, hwfr, ?_⟩
    rw [ssize_cons]
    omega
  · by_cases h1 : t.text.length - num = 1
    · rw [if_neg h0, if_pos h1]
      refine ⟨_, rfl, ?_, ?_⟩
      · intro x hx
        rcases List.mem_cons.mp hx with rfl | hmem
        · exact wfSTok_txt _
        · exact hwfr x hmem
      · rw [ssize_cons, ssize_cons]
        have := pyTake_length t.text (t.text.length - num)
        simp only [STok.text] at *
        omega
    · rw [if_neg h0, if_neg h1]
      refine ⟨_, rfl, ?_, ?_⟩
      · intro x hx
        rcases List.mem_cons.mp hx with rfl | hmem
        · constructor
          · intro h
            rw [hty] at h
            exact absurd h (by decide)
          · intro _
            have := pyTake_length t.text (t.text.length - num)
            simp only [STok.text] at *
            omega
        · exact hwfr x hmem
      · rw [ssize_cons, ssize_cons]
        have := pyTake_length t.text (t.text.length - num)
        simp only [STok.text] at *
        omega

theorem closeStep_ok {cfg : PCfg} {nb : Nat} {n : List TV} {t : STok}
    {rest : List STok} (hty : t.ty = .bra_close) (hwf : WfStream (t :: rest)) :
    ∃ n' nb' rest', closeStep cfg nb n t rest = .ok (n', nb', rest') ∧
      WfStream rest' ∧ ssize rest' + 2 ≤ ssize (t :: rest) := by
  have ht2 : 2 ≤ t.text.length := (hwf t (by simp)).2 hty
  unfold closeStep
  by_cases hc : t.text.length = 2 ∨ nb = 2
  · rw [if_pos hc]
    obtain ⟨r, hr, hwfr, hsz⟩ := consume_ok hty ht2 le_rfl hwf
    rw [hr]
    exact ⟨_, _, r, rfl, hwfr, hsz⟩
  · rw [if_neg hc]
    push_neg at hc
    have h3 : 3 ≤ t.text.length := by omega
    obtain ⟨r, hr, hwfr, hsz⟩ := consume_ok hty h3 (by omega) hwf
    rw [hr]
    exact ⟨_, _, r, rfl, hwfr, hsz⟩

theorem pobLoop_ok (cfg : PCfg) :
    ∀ fuel nb lc n stream, WfStream stream → ssize stream < fuel →
    ∃ out rest', pobLoop cfg fuel nb lc n stream = .ok (out, rest') ∧
      WfStream rest' ∧ ssize rest' ≤ ssize stream := by
  intro fuel
  induction fuel with
  | zero => intro nb lc n stream hwf hsz; exact absurd hsz (by omega)
  | succ fuel ih =>
    intro nb lc n stream hwf hsz
    match stream with
    | [] =>
      refine ⟨finishOB nb n, [], rfl, fun x hx => absurd hx (by simp), le_rfl⟩
    | ⟨ty, txt⟩ :: rest =>
      have hwfr : WfStream rest := fun x hx => hwf x (by simp [hx])
      have hszc := ssize_cons ⟨ty, txt⟩ rest
      simp only [STok.text] at hszc
      cases ty with
      | bra_open =>
        have ht2 : 2 ≤ txt.length := (hwf ⟨.bra_open, txt⟩ (List.mem_cons_self _ _)).1 rfl
        obtain ⟨sub, rest', hrun, hwf', hsz'⟩ :=
          ih txt.length 0 [] rest hwfr (by omega)
        obtain ⟨out, rest'', hrun2, hwf'', hsz''⟩ :=
          ih nb lc (n ++ [.lst sub]) rest' hwf' (by omega)
        refine ⟨out, rest'', ?_, hwf'', by omega⟩
        simp only [pobLoop, STok.ty, STok.text, hrun]
        exact hrun2
      | noi =>
        obtain ⟨out, rest', hrun, hwf', hsz'⟩ := ih nb lc n rest hwfr (by omega)
        exact ⟨out, rest', by simp only [pobLoop, STok.ty]; exact hrun, hwf', by omega⟩
      | bra_close =>
        by_cases hlc : lc = 0
        · subst hlc
          obtain ⟨n', nb', rest₁, hstep, hwf₁, hsz₁⟩ :=
            @closeStep_ok cfg nb n ⟨.bra_close, txt⟩ rest rfl hwf
          by_cases hnb : nb' < 2
          · refine ⟨finishOB nb' n', rest₁, ?_, hwf₁, by omega⟩
            simp only [pobLoop, STok.ty, hstep, if_pos hnb]
            exact if_pos trivial
          · obtain ⟨out, rest'', hrun2, hwf'', hsz''⟩ :=
              ih nb' 0 n' rest₁ hwf₁ (by omega)
            refine ⟨out, rest'', ?_, hwf'', by omega⟩
            simp only [pobLoop, STok.ty, hstep, if_neg hnb]
            exact hrun2
        · obtain ⟨out, rest', hrun, hwf', hsz'⟩ :=
            ih nb (obLinkStep txt lc) (n ++ [.str txt]) rest hwfr (by omega)
          refine ⟨out, rest', ?_, hwf', by omega⟩
          simp only [pobLoop, STok.ty, STok.text, if_neg hlc]
          exact hrun
      | link =>
        obtain ⟨out, rest', hrun, hwf', hsz'⟩ :=
          ih nb (obLinkStep txt lc) (n ++ [.str txt]) rest hwfr (by omega)
        exact ⟨out, rest', by simp only [pobLoop, STok.ty, STok.text]; exact hrun,
          hwf', by omega⟩
      | txt =>
        obtain ⟨out, rest', hrun, hwf', hsz'⟩ :=
          ih nb (obLinkStep txt lc) (n ++ [.str txt]) rest hwfr (by omega)
        exact ⟨out, rest', by simp only [pobLoop, STok.ty, STok.text]; exact hrun,
          hwf', by omega⟩

theorem parseLoop_ok (cfg : PCfg) :
    ∀ fuel n stream, WfStream stream → ssize stream < fuel →
    ∃ out, parseLoop cfg fuel n stream = .ok out := by
  intro fuel
  induction fuel with
  | zero => intro n stream hwf hsz; exact absurd hsz (by omega)
  | succ fuel ih =>
    intro n stream hwf hsz
    match stream with
    | [] => exact ⟨n, rfl⟩
    | ⟨ty, txt⟩ :: rest =>
      have hwfr : WfStream rest := fun x hx => hwf x (by simp [hx])
      have hszc := ssize_cons ⟨ty, txt⟩ rest
      simp only [STok.text] at hszc
      cases ty with
      | bra_open =>
        have ht2 : 2 ≤ txt.length := (hwf ⟨.bra_open, txt⟩ (List.mem_cons_self _ _)).1 rfl
        obtain ⟨sub, rest', hrun, hwf', hsz'⟩ :=
          pobLoop_ok cfg fuel txt.length 0 [] rest hwfr (by omega)
        obtain ⟨out, hrun2⟩ := ih (n ++ [.lst sub]) rest' hwf' (by omega)
        refine ⟨out, ?_⟩
        simp only [parseLoop, STok.ty, STok.text, hrun]
        exact hrun2
      | noi =>
        obtain ⟨out, hrun⟩ := ih n rest hwfr (by omega)
        exact ⟨out, by simp only [parseLoop, STok.ty]; exact hrun⟩
      | bra_close =>
        obtain ⟨out, hrun⟩ := ih (n ++ [.str txt]) rest hwfr (by omega)
        exact ⟨out, by simp only [parseLoop, STok.ty, STok.text]; exact hrun⟩
      | link =>
        obtain ⟨out, hrun⟩ := ih (n ++ [.str txt]) rest hwfr (by omega)
        exact ⟨out, by simp only [parseLoop, STok.ty, STok.text]; exact hrun⟩
      | txt =>
        obtain ⟨out, hrun⟩ := ih (n ++ [.str txt]) rest hwfr (by omega)
        exact ⟨out, by simp only [parseLoop, STok.ty, STok.text]; exact hrun⟩

theorem parseToks_ok (cfg : PCfg) (toks : List STok) (hwf : WfStream toks) :
    ∃ v, parseToks cfg toks = .ok v := by
  obtain ⟨out, hrun⟩ := parseLoop_ok cfg (ssize toks + 1) [] toks hwf (by omega)
  exact ⟨optimize (.lst out), by simp [parseToks, hrun, Except.map]⟩

/-- The default English parser configuration. -/
def enCfg : PCfg := mkPCfg enSiteInfo

/-- A configuration whose `#if:` parser-function aliases differ from the
English default (as a German siteinfo would supply). -/
def deCfg : PCfg := mkPCfg ⟨[("if", ["wenn"]), ("switch", ["switch"])]⟩

/-- C4: the macro brace parser never raises on malformed markup — for every
well-formed token stream and hence for every input text it returns a result —
and the input text `"{{unclosed"` parses to the single literal text value
`"{{unclosed"`. -/
theorem C4_parse_never_raises :
    (∀ cfg toks, WfStream toks → ∃ v, parseToks cfg toks = .ok v) ∧
    (∀ cfg s, ∃ v, parseTxt cfg s = .ok v) ∧
    parseTxt enCfg "\x7b\x7bunclosed" = .ok (.str "\x7b\x7bunclosed") :=
  ⟨fun cfg toks hwf => parseToks_ok cfg toks hwf,
   fun cfg s => parseToks_ok cfg (templScan s) (wf_scanChars s.toList),
   rfl⟩

/-- Witness for C4 at a concrete well-formed token stream. -/
theorem C4_parse_never_raises_witness :
    WfStream [⟨Sym.bra_open, "\x7b\x7b"⟩, ⟨Sym.txt, "unclosed"⟩] ∧
    ∃ v, parseToks enCfg [⟨Sym.bra_open, "\x7b\x7b"⟩, ⟨Sym.txt, "unclosed"⟩] = .ok v :=
  ⟨by decide, C4_parse_never_raises.1 enCfg _ (by decide)⟩

/-- C2: reaching a closing brace run at link depth 0 consumes exactly 2
closing braces as a Template close when the closing run has length 2 or the
open run is exactly 2, and exactly 3 as a Variable close otherwise; the
excess closing braces stay in the stream — as a plain text token when one
brace is left, still as a closing run otherwise, available to close an
enclosing open run (as the `"{{a{{{b}}}}}"` example shows: the 5-brace close
first closes the inner Variable with 3 braces and the remaining 2 close the
outer Template). -/
theorem C2_close_brace_rule :
    (∀ (cfg : PCfg) (nb : Nat) (n : List TV) (t : STok) (rest : List STok),
      t.ty = .bra_close → 2 ≤ t.text.length →
      ((t.text.length = 2 ∨ nb = 2 →
        closeStep cfg nb n t rest
          = .ok ([template_from_children cfg n], nb - 2,
              if t.text.length - 2 = 0 then rest
              else if t.text.length - 2 = 1 then
                ⟨.txt, pyTake t.text (t.text.length - 2)⟩ :: rest
              else ⟨.bra_close, pyTake t.text (t.text.length - 2)⟩ :: rest)) ∧
       (¬(t.text.length = 2 ∨ nb = 2) →
        closeStep cfg nb n t rest
          = .ok ([variable_from_children n], nb - 3,
              if t.text.length - 3 = 0 then rest
              else if t.text.length - 3 = 1 then
                ⟨.txt, pyTake t.text (t.text.length - 3)⟩ :: rest
              else ⟨.bra_close, pyTake t.text (t.text.length - 3)⟩ :: rest)))) ∧
    parseTxt enCfg "\x7b\x7ba\x7b\x7b\x7bb\x7d\x7d\x7d\x7d\x7d"
      = .ok (.template [.tup [.str "a", .vari [.str "b"]], .tup []]) := by
  constructor
  · intro cfg nb n t rest hty hlen
    constructor
    · intro hc
      have hcond : ¬(t.ty ≠ Sym.bra_close ∨ t.text.length < 2) := by
        push_neg
        exact ⟨by simp [hty], hlen⟩
      simp only [closeStep, if_pos hc, consume_closing_braces, if_neg hcond]
      by_cases h0 : t.text.length - 2 = 0
      · simp [h0, Except.map]
      · by_cases h1 : t.text.length - 2 = 1
        · rw [if_neg h0, if_pos h1]
          simp [Except.map, h0, h1, hty]
        · rw [if_neg h0, if_neg h1]
          simp [Except.map, h0, h1, hty]
    · intro hc
      push_neg at hc
      have h3 : 3 ≤ t.text.length := by omega
      have hcond : ¬(t.ty ≠ Sym.bra_close ∨ t.text.length < 3) := by
        push_neg
        exact ⟨by simp [hty], h3⟩
      simp only [closeStep, if_neg (show ¬(t.text.length = 2 ∨ nb = 2) by push_neg; exact hc),
        consume_closing_braces, if_neg hcond]
      by_cases h0 : t.text.length - 3 = 0
      · simp [h0, Except.map]
      · by_cases h1 : t.text.length - 3 = 1
        · rw [if_neg h0, if_pos h1]
          simp [Except.map, h0, h1, hty]
        · rw [if_neg h0, if_neg h1]
          simp [Except.map, h0, h1, hty]
  · rfl

/-- Witness for C2: the Template branch at a concrete 2-brace close inside a
2-brace open. -/
theorem C2_close_brace_rule_witness :
    closeStep enCfg 2 [.str "x"] ⟨.bra_close, "\x7d\x7d"⟩ []
      = .ok ([template_from_children enCfg [.str "x"]], 0, []) := by
  have h := (C2_close_brace_rule.1 enCfg 2 [.str "x"] ⟨.bra_close, "\x7d\x7d"⟩ []
    rfl (by decide)).1 (by decide)
  simpa using h

/-- C6 counterexample: the name `"ab:c["` has a bracket after its first colon
— the claim demands rejection — yet `template_from_children` accepts it and
builds a Template, because `_is_good_name` truncates at the first colon and
only inspects what comes before it. -/
theorem C6_counterexample :
    hasBracket (afterFirstColon "ab:c[") = true ∧
    template_from_children enCfg [.str "ab:c["]
      = .template [.str "ab:c[", .tup []] :=
  ⟨rfl, rfl⟩

theorem takeWhile_ne_of_not_contains {cs : List Char}
    (h : cs.contains ':' = false) : cs.takeWhile (fun c => c ≠ ':') = cs := by
  induction cs with
  | nil => rfl
  | cons c cs ih =>
    simp only [List.contains_cons, Bool.or_eq_false_iff] at h
    have hc : c ≠ ':' := by
      intro hcc
      subst hcc
      simp at h
    rw [List.takeWhile_cons, if_pos (decide_eq_true hc), ih h.2]

theorem beforeFirstColon_of_no_colon {s : String} (h : hasColon s = false) :
    beforeFirstColon s = s := by
  unfold beforeFirstColon
  unfold hasColon at h
  rw [takeWhile_ne_of_not_contains h]
  rfl

/-- C6 amended: a string invocation name is rejected by `_is_good_name` if
and only if a literal `[` or `]` occurs *before* (or at) its first colon —
the scan truncates at the colon; brackets after it are never seen — and a
rejected name makes `template_from_children` fall back to the literal
reconstruction `{{ ... }}`. -/
theorem C6_good_name_before_colon :
    (∀ s : String, is_good_name (.str s) = !hasBracket (beforeFirstColon s)) ∧
    template_from_children enCfg [.str "a[b"]
      = .node [.str "\x7b\x7b", .str "a[b", .str "\x7d\x7d"] ∧
    template_from_children enCfg [.str "ab:cd"]
      = .template [.str "ab:cd", .tup []] := by
  refine ⟨?_, rfl, rfl⟩
  intro s
  by_cases hc : hasColon s
  · by_cases hb : hasBracket (beforeFirstColon s)
    · simp [is_good_name, isGoodNameLoop, hc, hb]
    · simp [is_good_name, isGoodNameLoop, hc, hb]
  · have he := beforeFirstColon_of_no_colon (by simpa using hc)
    by_cases hb : hasBracket s
    · simp [is_good_name, isGoodNameLoop, hc, hb, he]
    · simp [is_good_name, isGoodNameLoop, hc, hb, he]

/-- C7 counterexample: the memoization cache is keyed by the text digest
alone, so a parser configured with different `#if:` aliases but sharing the
cache returns the other configuration's cached result: after an
English-configured parse of `"{{#if:x|y}}"` fills the cache, the
`deCfg`-configured cached parse returns the IfNode although its own
(uncached) parse yields a generic Template. -/
theorem C7_counterexample :
    (parseCached deCfg ((parseCached enCfg [] "\x7b\x7b#if:x|y\x7d\x7d").2) "\x7b\x7b#if:x|y\x7d\x7d").1
      = .ok (.ifnode [.str "x", .str "y"]) ∧
    parseTxt deCfg "\x7b\x7b#if:x|y\x7d\x7d" = .ok (.template [.str "#if:x", .tup [.str "y"]]) ∧
    (Except.ok (TV.ifnode [.str "x", .str "y"]) : Except String TV)
      ≠ .ok (.template [.str "#if:x", .tup [.str "y"]]) := by
  refine ⟨rfl, rfl, ?_⟩
  intro h
  injection h with h'
  exact TV.noConfusion h'

theorem lookup_mem : ∀ {l : List (String × TV)} {a : String} {b : TV},
    l.lookup a = some b → (a, b) ∈ l := by
  intro l
  induction l with
  | nil => intro a b h; simp [List.lookup] at h
  | cons p ps ih =>
    intro a b h
    match p with
    | (k, v) =>
      rw [List.lookup] at h
      by_cases hk : a == k
      · simp only [hk, if_pos] at h
        have : a = k := by simpa using hk
        subst this
        cases h
        exact List.mem_cons_self _ _
      · simp only [Bool.not_eq_true] at hk
        simp [hk] at h
        exact List.mem_cons_of_mem _ (ih h)

/-- C7 amended: the memoization is observationally transparent only for a
fixed configuration — when every cache entry was produced by the same
configuration's uncached parse, the cached parse agrees with the uncached
one. -/
theorem C7_cache_transparent_same_config :
    ∀ (cfg : PCfg) (cache : List (String × TV)) (txt : String),
      (∀ p ∈ cache, parseTxt cfg p.1 = .ok p.2) →
      (parseCached cfg cache txt).1 = parseTxt cfg txt := by
  intro cfg cache txt hcache
  unfold parseCached
  rcases hl : cache.lookup txt with _ | v
  · rcases hp : parseTxt cfg txt with e | v' <;> simp [hp]
  · have := hcache (txt, v) (lookup_mem hl)
    simp [this]

/-- Witness for C7 amended at the empty cache. -/
theorem C7_cache_transparent_same_config_witness :
    (parseCached enCfg [] "x").1 = parseTxt enCfg "x" :=
  C7_cache_transparent_same_config enCfg [] "x" (fun p hp => absurd hp (by simp))

/-- C8 counterexample: calling the parser without a siteinfo does not fail —
`Parser.__init__` silently substitutes the English siteinfo. -/
theorem C8_counterexample :
    Parser.init none = .ok (mkPCfg enSiteInfo) ∧
    ∀ e, Parser.init none ≠ .error e := by
  refine ⟨rfl, ?_⟩
  intro e h
  simp [Parser.init] at h

/-- C8 amended: the parser never fails at construction time — a missing
siteinfo is silently replaced by the English default configuration, a
supplied one is used as given. -/
theorem C8_init_defaults_to_en :
    Parser.init none = .ok (mkPCfg enSiteInfo) ∧
    (∀ si, Parser.init (some si) = .ok (mkPCfg si)) ∧
    (∀ siteinfo, ∃ cfg, Parser.init siteinfo = .ok cfg) :=
  ⟨rfl, fun _ => rfl, fun si => by cases si <;> exact ⟨_, rfl⟩⟩

/-! ### ParseLines (src/src/mwlib/refine/core.py lines 366-615)

`run()` collects consecutive `t_item`/`t_colon`-prefixed physical lines into
`t_complex_line` tokens and hands them to `analyze`, which groups equal
first-prefix-character runs into `ul`/`ol` lists, `:`-indents and
`;`-definition lists, recursing into the stripped-by-one-character
suffixes.  All loops share one recursion budget; `ParseLines.run`
instantiates a budget that is large enough for the inputs of the concrete
theorems (exhaustion would surface as an explicit error value, never as a
wrong tree). -/

/-- Unreachable-index default. -/
def dummyTok : UToken := tok .t_text ""

/-- `ParseLines.getchar` (src/src/mwlib/refine/core.py lines 419-424),
including its internal type guard. -/
def getchar (node : UToken) : Except String (Option Char) :=
  if node.ty ≠ .t_complex_line then .error "node.type != Token.t_complex_line"
  else
    match node.linepref.toList with
    | [] => .ok none
    | c :: _ => .ok (some c)

/-- `ParseLines.splitdl` (src/src/mwlib/refine/core.py lines 371-380):
truncate the item at the first `":"` special token and return the trailing
definition part as a `:`-style token. -/
def splitdl (item : UToken) : UToken × Option UToken :=
  match item.children.findIdx?
      (fun x => x.ty = .t_special ∧ x.text = ":") with
  | none => (item, none)
  | some i =>
    (item.withChildren (item.children.take i),
     some (.mk .t_complex_style "" (item.children.drop (i+1)) 0 ":" "" "" false ""))

/-- `ParseLines.handleNoPref` (src/src/mwlib/refine/core.py
lines 426-430). -/
def handleNoPref (t : UToken) : UToken :=
  if ¬t.tagname.isEmpty then t.withType .t_complex_tag else t.withType .t_complex_node

structure NodeItem where
  node : UToken
  item : UToken
  endtag : Option String

/-- `ParseLines.get_node_and_newitem` (src/src/mwlib/refine/core.py
lines 432-468); the unhandled-prefix fall-through (node `None`, which Python
would crash on in `analyze`) is `none`. -/
def get_node_and_newitem (p : Char) : Option NodeItem :=
  if p = ':' then
    some ⟨.mk .t_complex_style "" [] 0 ":" "" "" false "",
          .mk .t_complex_node "" [] 0 "" "" "" true "", none⟩
  else if p = '*' then
    some ⟨.mk .t_complex_tag "" [] 0 "" "ul" "" false "",
          .mk .t_complex_tag "" [] 0 "" "li" "" true "", some "ul"⟩
  else if p = '#' then
    some ⟨.mk .t_complex_tag "" [] 0 "" "ol" "" false "",
          .mk .t_complex_tag "" [] 0 "" "li" "" true "", some "ol"⟩
  else if p = ';' then
    some ⟨.mk .t_complex_style "" [] 0 ";" "" "" false "",
          .mk .t_complex_node "" [] 0 "" "" "" true "", none⟩
  else none

/-- `ParseLines.append_line` (src/src/mwlib/refine/core.py lines 470-488):
move `lines[sp]` into the item; with an endtag, split the line at a matching
closing tag and leave the remainder as a fresh `p`-tagged line. -/
def append_line (lines : List UToken) (sp : Nat) (item : UToken)
    (endtag : Option String) : List UToken × UToken :=
  let line := lines.getD sp dummyTok
  let moved : List UToken × UToken :=
    (lines.eraseIdx sp, item.withChildren (item.children ++ [line]))
  match endtag with
  | some tag =>
    match line.children.findIdx?
        (fun x => x.rawtagname = tag ∧ x.ty = .t_html_tag_end) with
    | some i =>
      let after := line.children.drop (i+1)
      let line' := line.withChildren (line.children.take i)
      (lines.set sp (.mk .t_complex_line "" after 0 "" "p" "" false ""),
       item.withChildren (item.children ++ [line']))
    | none => moved
  | none => moved

/-- The `Token(...)` copy of the grouping node made at the end of each
`analyze` iteration (src/src/mwlib/refine/core.py lines 404-411): only type,
tagname, caption, children and blocknode survive. -/
def copyNode (t : UToken) : UToken :=
  .mk t.ty "" t.children 0 t.caption t.tagname "" t.blocknode ""

mutual

/-- `ParseLines.analyze` (src/src/mwlib/refine/core.py lines 382-417):
append the guard line, run the grouping loop, drop the guard. -/
def analyzeF : Nat → List UToken → Except String (List UToken)
  | 0, _ => .error "recursion budget exhausted"
  | fuel+1, lines0 =>
    match analyzeLoopF fuel 0
        (lines0 ++ [.mk .t_complex_line "" [] 0 "" "" "<guard>" false ""]) with
    | .error e => .error e
    | .ok lines' => .ok lines'.dropLast

/-- The `while startpos < len(lines) - 1` loop of `analyze`.  Python's outer
per-prefix `while` calls `collect_items` again only under the same condition
that made `collect_items` stop, so a single `collectF` call per prefix run is
equivalent. -/
def analyzeLoopF : Nat → Nat → List UToken → Except String (List UToken)
  | 0, _, _ => .error "recursion budget exhausted"
  | fuel+1, sp, lines =>
    if sp < lines.length - 1 then
      match getchar (lines.getD sp dummyTok) with
      | .error e => .error e
      | .ok none =>
        analyzeLoopF fuel (sp+1) (lines.set sp (handleNoPref (lines.getD sp dummyTok)))
      | .ok (some pr) =>
        match get_node_and_newitem pr with
        | none => .error "unhandled line prefix"
        | some ni =>
          match collectF fuel pr (ni.node.withChildren []) ni.item ni.endtag none sp lines with
          | .error e => .error e
          | .ok (lines', node', dd') =>
            match dd' with
            | some d =>
              analyzeLoopF fuel (sp + 2)
                ((lines'.insertIdx sp (copyNode node')).insertIdx (sp+1) d)
            | none => analyzeLoopF fuel (sp + 1) (lines'.insertIdx sp (copyNode node'))
    else .ok lines

/-- `ParseLines.collect_items` (src/src/mwlib/refine/core.py lines 490-521).
The returned `dd` is the `;`-definition remainder; a `:`/`;` prefix stops
after one item. -/
def collectF : Nat → Char → UToken → UToken → Option String → Option UToken →
    Nat → List UToken → Except String (List UToken × UToken × Option UToken)
  | 0, _, _, _, _, _, _, _ => .error "recursion budget exhausted"
  | fuel+1, pr, node, newitem, endtag, dd, sp, lines =>
    if sp < lines.length - 1 then
      match getchar (lines.getD sp dummyTok) with
      | .error e => .error e
      | .ok g =>
        if g = some pr then
          let st := append_line lines sp (newitem.withChildren []) endtag
          match innerF fuel pr endtag sp st.2 st.1 with
          | .error e => .error e
          | .ok (lines1, item1) =>
            let item2 := item1.withChildren
              (item1.children.map (fun x => x.withLinepref (pyDrop x.linepref 1)))
            match analyzeF fuel item2.children with
            | .error e => .error e
            | .ok ac =>
              let item3 := item2.withChildren ac
              if pr = ';' ∧ ((item3.children.headD dummyTok).ty = .t_complex_node
                  ∧ ¬item3.children.isEmpty) then
                let sd := splitdl (item3.children.headD dummyTok)
                let item4 := item3.withChildren (sd.1 :: item3.children.tail)
                .ok (lines1, node.withChildren (node.children ++ [item4]), sd.2)
              else
                let node' := node.withChildren (node.children ++ [item3])
                if pr = ':' ∨ pr = ';' then .ok (lines1, node', dd)
                else collectF fuel pr node' newitem endtag dd sp lines1
        else .ok (lines, node, dd)
    else .ok (lines, node, dd)

/-- The continuation-line loop inside `collect_items`
(src/src/mwlib/refine/core.py lines 497-502). -/
def innerF : Nat → Char → Option String → Nat → UToken → List UToken →
    Except String (List UToken × UToken)
  | 0, _, _, _, _, _ => .error "recursion budget exhausted"
  | fuel+1, pr, endtag, sp, item, lines =>
    if sp < lines.length - 1 then
      match getchar (lines.getD sp dummyTok) with
      | .error e => .error e
      | .ok g =>
        if g = some pr ∧ 1 < (lines.getD sp dummyTok).linepref.length then
          let st := append_line lines sp item endtag
          innerF fuel pr endtag sp st.2 st.1
        else .ok (lines, item)
    else .ok (lines, item)

end

/-- The physical line grouped by `ParseLines.run`. -/
def mkLine (sub : List UToken) (lp : String) : UToken :=
  .mk .t_complex_line "" sub 0 "" "" lp false ""

/-- The scanning loop of `ParseLines.run` (src/src/mwlib/refine/core.py
lines 526-615); `left = tokens[0:i]`, `startL`/`firstT` are the
`start_line`/`first_token` indices into `left`, `lines` the pending
`t_complex_line` tokens.  After a splice Python rescans the just-inserted
analyzed lines (they pass unchanged through the loop); that replay is the
`lx ++ t :: rs` push-back. -/
def linesRunF : Nat → List UToken → Option Nat → Option Nat → List UToken →
    List UToken → Except String (List UToken)
  | 0, _, _, _, _, _ => .error "recursion budget exhausted"
  | fuel+1, left, startL, firstT, lines, rest =>
    match rest with
    | [] =>
      let lines' := match startL with
        | some s => lines ++ [mkLine (left.drop (s+1)) (pyTrim (textAt left s))]
        | none => lines
      if lines'.isEmpty then .ok left
      else
        match analyzeF fuel lines' with
        | .error e => .error e
        | .ok lx => .ok (left.take (firstT.getD 0) ++ lx)
    | t :: rs =>
      if t.ty = .t_item ∨ t.ty = .t_colon then
        linesRunF fuel (left ++ [t]) (some left.length)
          (some (firstT.getD left.length)) lines rs
      else
        match startL with
        | some s =>
          if t.ty = .t_newline then
            linesRunF fuel (left ++ [t]) none firstT
              (lines ++ [mkLine (left.drop (s+1) ++ [t]) (pyTrim (textAt left s))]) rs
          else if t.ty = .t_break then
            match analyzeF fuel
                (lines ++ [mkLine (left.drop (s+1)) (pyTrim (textAt left s))]) with
            | .error e => .error e
            | .ok lx => linesRunF fuel (left.take (firstT.getD 0)) none none [] (lx ++ t :: rs)
          else linesRunF fuel (left ++ [t]) (some s) firstT lines rs
        | none =>
          if t.ty = .t_break then
            if lines.isEmpty then linesRunF fuel (left ++ [t]) none none [] rs
            else
              match analyzeF fuel lines with
              | .error e => .error e
              | .ok lx =>
                linesRunF fuel (left.take (firstT.getD 0)) none none [] (lx ++ t :: rs)
          else if lines.isEmpty then linesRunF fuel (left ++ [t]) none firstT lines rs
          else
            match analyzeF fuel lines with
            | .error e => .error e
            | .ok lx =>
              linesRunF fuel (left.take (firstT.getD 0)) none none [] (lx ++ t :: rs)

/-- `ParseLines.run` with a generous recursion budget. -/
def ParseLines.run (tokens : List UToken) : Except String (List UToken) :=
  linesRunF ((tokens.length + 4) * (tokens.length + 4) * 4) [] none none [] tokens

/-- C9 counterexample: `ParsePreformatted.run` does not finalize a pending
preformatted block at end-of-input.  On `[t_pre " ", t_text "x"]` — a `t_pre`
start whose line never sees a newline — the pass returns the input unchanged,
and no `t_complex_preformatted` node appears in the output, contradicting
"every construct left unterminated at end-of-input (..., a preformatted
block, ...) is finalized using all remaining tokens as its body". -/
theorem C9_counterexample :
    ParsePreformatted.run [tok .t_pre " ", tok .t_text "x"]
      = .ok [tok .t_pre " ", tok .t_text "x"] ∧
    ([tok .t_pre " ", tok .t_text "x"].countP
      (fun t => t.ty == TType.t_complex_preformatted)) = 0 :=
  ⟨rfl, rfl⟩

/-- C9 (amended): `ParseSections.run` and `ParseLines.run` finalize a pending
heading resp. pending line at end-of-input using all remaining tokens as the
body, and none of the three passes propagates an error at end-of-input —
but `ParsePreformatted.run`, while never erroring, leaves a pending
preformatted block unfinalized.  Conjuncts: (1) at end-of-input with a pending
heading, `ParseSections` runs `create()`, whose section node's body wrapper
holds every token after the title (`tokens[e+1:]`); (2) a concrete pending
heading at end-of-input is finalized with the two trailing text tokens as its
body; (3) a pending `:`-line at end-of-input is finalized by `ParseLines` with
the remaining token as its content; (4) `ParsePreformatted` returns a buffer
(never an error) on every input; (5) on a concrete pending preformatted block
it returns the input unchanged. -/
theorem C9_eof_finalization :
    (∀ left s e stack rootPos,
      sectionsLoop left (some s) (some e) stack rootPos []
        = (sectionsCreate left s e stack rootPos).left ∧
      (sectionsCreate left s e stack rootPos).sect
        = .mk .t_complex_section ""
            [tokc .t_complex_node (sectCaption left s e),
             tokc .t_complex_node (left.drop (e+1))]
            (sectLevel left s e) "" SECTION_TAG "" true "") ∧
    ParseSections.run
      [tok .t_section "=", tok .t_text "T", tok .t_section_end "=",
       tok .t_text "x", tok .t_text "y"]
      = [secNode 1 [tokc .t_complex_node [tok .t_text "T"],
                    tokc .t_complex_node [tok .t_text "x", tok .t_text "y"]]] ∧
    ParseLines.run [tok .t_colon ":", tok .t_text "a"]
      = .ok [.mk .t_complex_style ""
              [.mk .t_complex_node ""
                [.mk .t_complex_node "" [tok .t_text "a"] 0 "" "" "" false ""]
                0 "" "" "" true ""]
              0 ":" "" "" false ""] ∧
    (∀ input, ∃ out, ParsePreformatted.run input = .ok out) ∧
    ParsePreformatted.run [tok .t_pre " ", tok .t_text "y", tok .t_text "z"]
      = .ok [tok .t_pre " ", tok .t_text "y", tok .t_text "z"] := by
  refine ⟨fun left s e stack rootPos => ⟨rfl, ?_⟩, rfl, rfl,
    fun input => preLoop_isOk input [] none, rfl⟩
  rcases h : stack.dropWhile (fun l => sectLevel left s e ≤ l) with _ | ⟨l0, ls⟩
  · rw [sectionsCreate_of_dropWhile_nil h]; exact rfl
  · rw [sectionsCreate_of_dropWhile_cons h]; exact rfl

/-! ### tokenize (src/src/mwlib/utoken.py lines 330-333)

`tokenize` guards against falsy input (for a string argument: the empty
string) with `raise ValueError(...)` and otherwise returns
`compat_scan(input_arg)`.  The raw scanner `_mwscan.scan` behind
`compat_scan` is a C extension that is not part of this repository, and the
spec places raw character-level lexing outside the covered core ("assume a
classified token stream is supplied"), so the raw scan is modelled from the
spec; the surrounding `tokenize` guard and the per-triple `Token`
construction of `CompatScanner.__call__` are taken from the source. -/

/-- Modelled from the spec: the external lexer "emits a flat ordered sequence
of typed, span-addressed tokens from raw text"; modelled alphabet: each
newline character becomes a `t_newline` token and each maximal run of other
characters a `t_text` token. -/
def rawScanF : Nat → List Char → List (TType × String)
  | 0, _ => []
  | _+1, [] => []
  | fuel+1, c :: cs =>
    if c = '\n' then (.t_newline, "\n") :: rawScanF fuel cs
    else
      (.t_text, String.mk (c :: cs.takeWhile (fun d => d ≠ '\n'))) ::
        rawScanF fuel (cs.dropWhile (fun d => d ≠ '\n'))

def rawScan (s : String) : List (TType × String) :=
  rawScanF (s.length + 1) s.toList

/-- `CompatScanner.__call__` (src/src/mwlib/utoken.py lines 278-324) over the
modelled raw-token alphabet: for `t_text`/`t_newline` triples the
begintable-, entity- and html-tag special cases do not fire and each raw
triple becomes one plain `Token`. -/
def compat_scan (s : String) : List UToken :=
  (rawScan s).map (fun p => tok p.1 p.2)

/-- `tokenize` (src/src/mwlib/utoken.py lines 330-333): falsy input raises
`ValueError`, otherwise the compat scanner's token list is returned. -/
def tokenize (input_arg : String) : Except String (List UToken) :=
  if input_arg.isEmpty then .error "must specify input argument in tokenize"
  else .ok (compat_scan input_arg)

/-- C10: `tokenize` rejects empty input with a `ValueError` instead of
returning an empty token stream — so the refinement pipeline cannot be run on
an empty document — and returns a token list without raising for every
non-empty string; concretely, `tokenize "x"` yields one text token. -/
theorem C10_tokenize_rejects_empty :
    tokenize "" = .error "must specify input argument in tokenize" ∧
    (∀ s : String, ¬s.isEmpty → ∃ ts, tokenize s = .ok ts) ∧
    tokenize "x" = .ok [tok .t_text "x"] :=
  ⟨rfl, fun s h => ⟨compat_scan s, by simp [tokenize, h]⟩, rfl⟩

end Mwlib
